import Mathlib

/-!
Verification development for the content rewrite backend.

The definitions below are a shallow embedding of the JavaScript source:
pure functions become Lean functions on `List Char` / `String`, JS machine
integers become `Int` with explicit 32-bit wraparound, timestamps become
`Int` parameters, fallible operations return `Option`/`Except`, and the
event-loop control flow of the one async function with shared state
(`fetchAllBlogs`) becomes explicit state passing over its await-free
atomic segments.  All definitions are executable.
-/

set_option maxRecDepth 20000

namespace Backend

/-! ## Basic list-string kit -/

/-- Boolean test: `p` is a leading run of `s` (exact character match). -/
def pfxB : List Char → List Char → Bool
  | [], _ => true
  | _ :: _, [] => false
  | a :: as, b :: bs => a == b && pfxB as bs

/-- Boolean test: `p` occurs as a contiguous run somewhere in `s`. -/
def subB (p : List Char) : List Char → Bool
  | [] => pfxB p []
  | c :: cs => pfxB p (c :: cs) || subB p cs

/-- Propositional form of substring occurrence. -/
def occursIn (p s : List Char) : Prop := ∃ u v, s = u ++ p ++ v

/-! ## Widget placeholders

The source builds placeholders with a JS template literal
`___WIDGET_${i}___` where `i` is the decimal index. -/

/-- Decimal digit character (only ever applied to `d < 10`). -/
def digitChar : Nat → Char
  | 0 => '0' | 1 => '1' | 2 => '2' | 3 => '3' | 4 => '4'
  | 5 => '5' | 6 => '6' | 7 => '7' | 8 => '8' | 9 => '9'
  | _ => '0'

/-- Fueled decimal conversion (fuel `n+1` always suffices). -/
def natDigitsGo : Nat → Nat → List Char
  | 0, _ => []
  | fuel + 1, n =>
    if n < 10 then [digitChar n]
    else natDigitsGo fuel (n / 10) ++ [digitChar (n % 10)]

/-- Decimal representation of a natural number, as JS `String(i)` yields. -/
def natDigits (n : Nat) : List Char := natDigitsGo (n + 1) n

/-- The fixed leading run `___WIDGET_` shared by all placeholders. -/
def marker : List Char := ['_', '_', '_', 'W', 'I', 'D', 'G', 'E', 'T', '_']

/-- Placeholder text `___WIDGET_<i>___` for index `i`, as a char list. -/
def phL (i : Nat) : List Char := marker ++ natDigits i ++ ['_', '_', '_']

/-! ## JS `String.prototype.replace` with a string pattern

`out.replace(pat, repl)` replaces only the first occurrence of `pat`,
and processes `$`-sequences in `repl`: `$$` is a literal dollar, `$&`
inserts the matched text, a dollar followed by a backquote inserts the
portion before the match, `$'` the portion after; everything else
(including `$1`, since a string pattern has no capture groups) is kept
literally. -/

/-- Substitution of `$`-sequences in the replacement string: `m` is the
matched text, `a` the portion before the match, `b` the portion after. -/
def dollarSubst : List Char → List Char → List Char → List Char → List Char
  | [], _, _, _ => []
  | c :: rest, m, a, b =>
    if c = '$' then
      match rest with
      | [] => ['$']
      | c2 :: rest2 =>
        if c2 = '$' then '$' :: dollarSubst rest2 m a b
        else if c2 = '&' then m ++ dollarSubst rest2 m a b
        else if c2.toNat = 96 then a ++ dollarSubst rest2 m a b
        else if c2 = '\'' then b ++ dollarSubst rest2 m a b
        else '$' :: dollarSubst (c2 :: rest2) m a b
    else c :: dollarSubst rest m a b

/-- Split `s` at the first occurrence of `p`: returns the portions before
and after the match, or `none` when `p` does not occur. -/
def splitFirst : List Char → List Char → Option (List Char × List Char)
  | [], p => if pfxB p [] then some ([], []) else none
  | c :: t, p =>
    if pfxB p (c :: t) then some ([], (c :: t).drop p.length)
    else (splitFirst t p).map fun pr => (c :: pr.1, pr.2)

/-- JS `s.replace(p, w)` for string pattern `p`: first occurrence only,
with `$`-processing of `w`; `s` unchanged when `p` does not occur. -/
def jsReplaceFirst (s p w : List Char) : List Char :=
  match splitFirst s p with
  | none => s
  | some (a, b) => a ++ dollarSubst w p a b ++ b

/-! ## Widget restore (part_002 lines 168-172, part_000 lines 61-67)

```js
function restoreWidgets(html, widgets) {
  let out = html;
  widgets.forEach((w, i) => { out = out.replace(`___WIDGET_${i}___`, w); });
  return out;
}
``` -/

/-- The `forEach` fold of `restoreWidgets`, with `i` the index of the
first widget still to process. -/
def restoreAux (i : Nat) (out : List Char) : List (List Char) → List Char
  | [] => out
  | w :: ws => restoreAux (i + 1) (jsReplaceFirst out (phL i) w) ws

/-- `restoreWidgets(html, widgets)` from the source. -/
def restoreWidgets (html : String) (widgets : List String) : String :=
  String.mk (restoreAux 0 html.toList (widgets.map String.toList))

/-! ## The fragile-fragment matcher

The source scans with one global case-insensitive regex
(part_002 line 162 / part_000 line 51):

```
(<(?:iframe|script|embed|object)[^>]*>(?:[\s\S]*?<\/(?:iframe|script|embed|object)>)?)
|(<div[^>]*class="[^"]*(?:w-embed|w-widget|widget|embed)[^"]*"[^>]*>[\s\S]*?<\/div>)
|(<figure[^>]*>[\s\S]*?<\/figure>)|(<video[^>]*>[\s\S]*?<\/video>)
```

`matchHere s` returns the length of the match starting at the head of
`s`, following the JS backtracking semantics: alternatives are tried in
order, `[^>]*`/`[^"]*` are greedy (longest first), `[\s\S]*?` is lazy
(shortest first), and all literal characters compare case-insensitively
because of the `i` flag. -/

/-- ASCII lowercase used for the regex `i` flag. -/
def lowerC : Char → Char
  | 'A' => 'a' | 'B' => 'b' | 'C' => 'c' | 'D' => 'd' | 'E' => 'e'
  | 'F' => 'f' | 'G' => 'g' | 'H' => 'h' | 'I' => 'i' | 'J' => 'j'
  | 'K' => 'k' | 'L' => 'l' | 'M' => 'm' | 'N' => 'n' | 'O' => 'o'
  | 'P' => 'p' | 'Q' => 'q' | 'R' => 'r' | 'S' => 's' | 'T' => 't'
  | 'U' => 'u' | 'V' => 'v' | 'W' => 'w' | 'X' => 'x' | 'Y' => 'y'
  | 'Z' => 'z' | c => c

/-- Case-insensitive version of `pfxB`; the pattern is given lowercase. -/
def ciPfx : List Char → List Char → Bool
  | [], _ => true
  | _ :: _, [] => false
  | a :: as, b :: bs => a == lowerC b && ciPfx as bs

/-- Length of the longest leading run of `l` whose characters satisfy `p`
(the deterministic extent of a greedy negated character class). -/
def spanLen (p : Char → Bool) : List Char → Nat
  | [] => 0
  | c :: t => if p c then spanLen p t + 1 else 0

/-- The four tag names of the first regex alternative, in source order. -/
def tagNames : List (List Char) :=
  [['i','f','r','a','m','e'], ['s','c','r','i','p','t'],
   ['e','m','b','e','d'], ['o','b','j','e','c','t']]

/-- First element of `l` on which `f` yields a value, with that value. -/
def firstSome (f : α → Option β) : List α → Option β
  | [] => none
  | a :: as => match f a with
    | some b => some b
    | none => firstSome f as

/-- Lazy search for the earliest `</name>` (case-insensitive) where
`name` ranges over `tagNames`; returns offset and matched length. -/
def findClose1 : List Char → Option (Nat × Nat)
  | [] => none
  | c :: rest =>
    match tagNames.find? (fun n => ciPfx ('<' :: '/' :: n ++ ['>']) (c :: rest)) with
    | some n => some (0, n.length + 3)
    | none => (findClose1 rest).map fun pr => (pr.1 + 1, pr.2)

/-- Lazy search for the earliest `</name>` (case-insensitive) for one
fixed `name`; returns the offset. -/
def findCloseTagS (name : List Char) : List Char → Option Nat
  | [] => none
  | c :: rest =>
    if ciPfx ('<' :: '/' :: name ++ ['>']) (c :: rest) then some 0
    else (findCloseTagS name rest).map (· + 1)

/-- First alternative, applied to the text after the initial `<`:
`(?:iframe|script|embed|object)[^>]*>(?:[\s\S]*?<\/(?:iframe|script|embed|object)>)?`.
The optional group is greedy, so a close tag is taken whenever any of the
four close tags occurs later; otherwise the match is just the open tag. -/
def branch1 (t : List Char) : Option Nat :=
  match tagNames.find? (fun n => ciPfx n t) with
  | none => none
  | some n =>
    let t1 := t.drop n.length
    let k := spanLen (fun c => !(c == '>')) t1
    if k < t1.length then
      let base := n.length + k + 1
      match findClose1 (t1.drop (k + 1)) with
      | some pr => some (base + pr.1 + pr.2)
      | none => some base
    else none

/-- The class keywords of the second alternative, in source order. -/
def kwNames : List (List Char) :=
  [['w','-','e','m','b','e','d'], ['w','-','w','i','d','g','e','t'],
   ['w','i','d','g','e','t'], ['e','m','b','e','d']]

/-- The literal `class="` (lowercase; matched case-insensitively). -/
def classEq : List Char := ['c','l','a','s','s','=','"']

/-- The tag name `div`. -/
def divName : List Char := ['d','i','v']

/-- Deterministic tail of the second alternative after the keyword:
`[^"]*"` then `[^>]*>` then lazy `[\s\S]*?<\/div>`.  Returns the length
consumed from `t3` on success. -/
def div2Tail (t3 : List Char) : Option Nat :=
  let q2 := spanLen (fun c => !(c == '"')) t3
  if q2 < t3.length then
    let t4 := t3.drop (q2 + 1)
    let q3 := spanLen (fun c => !(c == '>')) t4
    if q3 < t4.length then
      match findCloseTagS divName (t4.drop (q3 + 1)) with
      | some j => some (q2 + 1 + q3 + 1 + j + 6)
      | none => none
    else none
  else none

/-- At offset `y` inside the attribute value, try the four keywords in
source order, each followed by the deterministic tail. -/
def tryKwAt (t2 : List Char) (y : Nat) : Option Nat :=
  firstSome
    (fun kw =>
      if ciPfx kw (t2.drop y) then
        (div2Tail (t2.drop (y + kw.length))).map fun m => y + kw.length + m
      else none)
    kwNames

/-- Greedy `[^"]*` before the keyword: try offsets `y, y-1, …, 0`. -/
def tryYdesc (t2 : List Char) : Nat → Option Nat
  | 0 => tryKwAt t2 0
  | y + 1 =>
    match tryKwAt t2 (y + 1) with
    | some r => some r
    | none => tryYdesc t2 y

/-- Greedy `[^>]*` before `class="`: try offsets `x, x-1, …, 0`; at each
offset require the literal `class="` and then the inner attribute
search.  Returns the length consumed from `t1` on success. -/
def tryXdesc (t1 : List Char) : Nat → Option Nat
  | 0 =>
    if ciPfx classEq t1 then
      let t2 := t1.drop 7
      (tryYdesc t2 (spanLen (fun c => !(c == '"')) t2)).map (7 + ·)
    else none
  | x + 1 =>
    (if ciPfx classEq (t1.drop (x + 1)) then
      let t2 := t1.drop (x + 1 + 7)
      (tryYdesc t2 (spanLen (fun c => !(c == '"')) t2)).map (x + 1 + 7 + ·)
    else none).orElse fun _ => tryXdesc t1 x

/-- Second alternative, applied to the text after the initial `<`:
`div[^>]*class="[^"]*(?:w-embed|w-widget|widget|embed)[^"]*"[^>]*>[\s\S]*?<\/div>`. -/
def branch2 (t : List Char) : Option Nat :=
  if ciPfx divName t then
    let t1 := t.drop 3
    (tryXdesc t1 (spanLen (fun c => !(c == '>')) t1)).map (3 + ·)
  else none

/-- Third and fourth alternatives (`figure`, `video`), applied after the
initial `<`: `name[^>]*>[\s\S]*?<\/name>`; the close tag is required. -/
def branchSimple (name : List Char) (t : List Char) : Option Nat :=
  if ciPfx name t then
    let t1 := t.drop name.length
    let k := spanLen (fun c => !(c == '>')) t1
    if k < t1.length then
      match findCloseTagS name (t1.drop (k + 1)) with
      | some j => some (name.length + k + 1 + j + (name.length + 3))
      | none => none
    else none
  else none

/-- The tag name `figure`. -/
def figureName : List Char := ['f','i','g','u','r','e']

/-- The tag name `video`. -/
def videoName : List Char := ['v','i','d','e','o']

/-- Match length of the whole regex at the head of `s` (alternatives in
source order), or `none`. -/
def matchHere : List Char → Option Nat
  | '<' :: t =>
    match branch1 t with
    | some n => some (n + 1)
    | none =>
      match branch2 t with
      | some n => some (n + 1)
      | none =>
        match branchSimple figureName t with
        | some n => some (n + 1)
        | none =>
          match branchSimple videoName t with
          | some n => some (n + 1)
          | none => none
  | _ => none

/-! ## Widget protect (part_002 lines 159-166, part_000 lines 48-59)

```js
function protectWidgets(html) {
  const widgets = [];
  const safe = html.replace(regex, (m) => {
    const id = `___WIDGET_${widgets.length}___`; widgets.push(m); return id; });
  return { html: safe, widgets };
}
```

`html.replace` with a global regex scans left to right, replaces each
(non-overlapping) match and resumes after it; the callback numbers the
fragments in scan order.  `protectAux` is that scan; the fuel argument
(`html.length` at the top call) only bounds the recursion — every step
either copies one character or consumes a match of length ≥ 1. -/

/-- The replace scan: `cnt` is the number of fragments already captured. -/
def protectAux : Nat → Nat → List Char → List Char × List (List Char)
  | 0, _, s => (s, [])
  | fuel + 1, cnt, s =>
    match s with
    | [] => ([], [])
    | c :: rest =>
      match matchHere (c :: rest) with
      | some len =>
        let frag := (c :: rest).take len
        let r := protectAux fuel (cnt + 1) ((c :: rest).drop len)
        (phL cnt ++ r.1, frag :: r.2)
      | none =>
        let r := protectAux fuel cnt rest
        (c :: r.1, r.2)

/-- Result shape of `protectWidgets` (fields as in part_002). -/
structure ProtectResult where
  html : String
  widgets : List String
deriving DecidableEq

/-- `protectWidgets(html)` from the source. -/
def protectWidgets (html : String) : ProtectResult :=
  let r := protectAux html.toList.length 0 html.toList
  ⟨String.mk r.1, r.2.map String.mk⟩

/-! ## Interleavings used to state the restore properties -/

/-- `tailPh k [g1, …, gn] = ___WIDGET_k___ g1 ___WIDGET_(k+1)___ g2 …`. -/
def tailPh (k : Nat) : List (List Char) → List Char
  | [] => []
  | g :: gs => phL k ++ g ++ tailPh (k + 1) gs

/-- `tailFr [f1, …, fn] [g1, …, gn] = f1 g1 f2 g2 …`. -/
def tailFr : List (List Char) → List (List Char) → List Char
  | f :: fs, g :: gs => f ++ g ++ tailFr fs gs
  | _, _ => []

/-- Conditions every fragment captured by the matcher satisfies: starts
with `<`, ends with `>`; plus the two restrictions of the amended
round-trip claims: contains no `___WIDGET_` run and no `$`. -/
def fragOK (f : List Char) : Bool :=
  subB marker f == false && f.all (fun c => !(c == '$')) &&
    (match f with | '<' :: _ => true | _ => false) &&
    (match f.getLast? with | some c => c == '>' | none => false)

/-! ## Cache layer

part_002 lines 43-51:
```js
function cacheGet(map, key, ttl) {
  const e = map.get(key);
  if (!e || (Date.now() - e.ts) > ttl) return null;
  return e.data;
}
function cacheSet(map, key, data) { map.set(key, { data, ts: Date.now() }); }
```
part_001 lines 36-49:
```js
function isCacheValid(cache, key, ttl) {
  const entry = cache.get(key);
  if (!entry) return false;
  return (Date.now() - entry.timestamp) < ttl;
}
function getFromCache(cache, key, ttl) {
  if (!isCacheValid(cache, key, ttl)) return null;
  return cache.get(key).data;
}
function setCache(cache, key, data) { cache.set(key, { data, timestamp: Date.now() }); }
```
A `Map` becomes an association list looked up at the first binding;
`Date.now()` becomes an explicit `now : Int` (milliseconds). -/

/-- One cache entry: payload plus creation timestamp. -/
structure CEntry (α : Type) where
  data : α
  ts : Int
deriving DecidableEq

/-- `map.get(key)` on the association-list model. -/
def mapGet (m : List (String × CEntry α)) (k : String) : Option (CEntry α) :=
  (m.find? (fun p => p.1 == k)).map (·.2)

/-- `cacheGet` of part_002: lazy expiry with a strict `>` age test. -/
def cacheGet (m : List (String × CEntry α)) (k : String) (ttl now : Int) : Option α :=
  match mapGet m k with
  | none => none
  | some e => if now - e.ts > ttl then none else some e.data

/-- `isCacheValid` of part_001: valid iff age `<` ttl. -/
def isCacheValid (m : List (String × CEntry α)) (k : String) (ttl now : Int) : Bool :=
  match mapGet m k with
  | none => false
  | some e => now - e.ts < ttl

/-- `getFromCache` of part_001. -/
def getFromCache (m : List (String × CEntry α)) (k : String) (ttl now : Int) : Option α :=
  if isCacheValid m k ttl now then (mapGet m k).map (·.data) else none

/-- `cacheSet`/`setCache`: unconditional overwrite stamped `now`. -/
def cacheSet (m : List (String × CEntry α)) (k : String) (v : α) (now : Int) :
    List (String × CEntry α) :=
  (k, ⟨v, now⟩) :: m.filter (fun p => !(p.1 == k))

/-! ## Rate limiter (part_002 lines 64-75; part_001 lines 68-87 is identical)

```js
const RATE_WINDOW = 60_000;  const RATE_MAX = 30;
function rateOk(ip) {
  const now = Date.now();
  const r = rateMap.get(ip);
  if (!r || now > r.reset) { rateMap.set(ip, { count: 1, reset: now + RATE_WINDOW }); return true; }
  if (r.count >= RATE_MAX) return false;
  r.count++;
  return true;
}
```
Modelled for a single client key: the map entry is an `Option RateRecord`. -/

/-- Per-client record. -/
structure RateRecord where
  count : Nat
  reset : Int
deriving DecidableEq

/-- The fixed window length (ms). -/
def RATE_WINDOW : Int := 60000

/-- The per-window request maximum. -/
def RATE_MAX : Nat := 30

/-- One `rateOk(ip)` call at time `now`; returns the verdict and the
record stored for the key afterwards. -/
def rateOk (now : Int) : Option RateRecord → Bool × RateRecord
  | none => (true, ⟨1, now + RATE_WINDOW⟩)
  | some r =>
    if now > r.reset then (true, ⟨1, now + RATE_WINDOW⟩)
    else if r.count ≥ RATE_MAX then (false, r)
    else (true, ⟨r.count + 1, r.reset⟩)

/-- `n` consecutive `rateOk` calls at the same time `now`, returning the
verdicts in order and the final record. -/
def rateCalls (now : Int) : Option RateRecord → Nat → List Bool × Option RateRecord
  | st, 0 => ([], st)
  | st, n + 1 =>
    let r := rateOk now st
    let rest := rateCalls now (some r.2) n
    (r.1 :: rest.1, rest.2)

/-! ## Resilient fetch (part_002 lines 85-98; part_001 lines 100-123 identical)

```js
async function fetchR(url, opts = {}, timeout = 30000, retries = 3) {
  for (let i = 1; i <= retries; i++) {
    try {
      const ctrl = new AbortController();
      const tid = setTimeout(() => ctrl.abort(), timeout);
      const r = await fetch(url, { ...opts, signal: ctrl.signal });
      clearTimeout(tid);
      return r;
    } catch (e) {
      if (i === retries) throw e;
      await new Promise(r => setTimeout(r, Math.min(1000 * 2 ** (i - 1), 5000)));
    }
  }
}
```
Each attempt's outcome (a received response — any status, the function
never reads `r.ok` — or a transport failure/abort) is an oracle
`outcome : Nat → Except String HResp` indexed by the attempt number.
The model returns the result (`none` = the loop ran zero iterations and
JS returns `undefined`, possible only for `retries = 0`) together with
the list of backoff delays actually waited. -/

/-- A successfully received HTTP response; the status is carried to show
that 4xx/5xx responses are returned as-is. -/
structure HResp where
  status : Nat
deriving DecidableEq

/-- Backoff before the attempt after failed attempt `i`. -/
def backoffDelay (i : Nat) : Nat := min (1000 * 2 ^ (i - 1)) 5000

/-- The retry loop: `i` is the current attempt number, `left` the number
of attempts still allowed (`retries - i + 1`); `left = 0` means the loop
guard `i <= retries` failed. -/
def fetchRGo (outcome : Nat → Except String HResp) : Nat → Nat → Option (Except String HResp) × List Nat
  | _, 0 => (none, [])
  | i, left + 1 =>
    match outcome i with
    | .ok r => (some (.ok r), [])
    | .error e =>
      if left = 0 then (some (.error e), [])
      else
        let r2 := fetchRGo outcome (i + 1) left
        (r2.1, backoffDelay i :: r2.2)

/-- `fetchR` with attempt outcomes `outcome` and `retries` attempts. -/
def fetchR (outcome : Nat → Except String HResp) (retries : Nat) :
    Option (Except String HResp) × List Nat :=
  fetchRGo outcome 1 retries

/-! ## Cache-key hash (part_002 lines 34-41)

```js
function hash(str) {
  let h = 0;
  for (let i = 0; i < Math.min(str.length, 5000); i++) {
    h = ((h << 5) - h) + str.charCodeAt(i);
    h = h & h;
  }
  return h.toString(36);
}
```
JS strings are UTF-16: `str.length` counts code units and `charCodeAt`
yields code units, so a `Char` above `0xFFFF` contributes a surrogate
pair.  `<<` and `&` coerce to signed 32-bit; `h & h` is `ToInt32(h)`. -/

/-- Signed 32-bit wraparound (JS `ToInt32`). -/
def toInt32 (n : Int) : Int := (n + 2 ^ 31) % 2 ^ 32 - 2 ^ 31

/-- UTF-16 code units of one character. -/
def utf16units (c : Char) : List Nat :=
  if c.toNat < 65536 then [c.toNat]
  else [55296 + (c.toNat - 65536) / 1024, 56320 + (c.toNat - 65536) % 1024]

/-- UTF-16 code units of a string. -/
def utf16 (s : String) : List Nat := s.toList.flatMap utf16units

/-- One loop iteration: `h = ToInt32(ToInt32(h << 5) - h + code)`. -/
def hashStep (h : Int) (code : Nat) : Int := toInt32 (toInt32 (h * 32) - h + code)

/-- The accumulated 32-bit hash over the first `min(length, 5000)` code
units. -/
def jsHashInt (s : String) : Int :=
  let us := utf16 s
  (us.take (min us.length 5000)).foldl hashStep 0

/-- Base-36 digit (JS `Number.prototype.toString(36)` alphabet). -/
def b36digit (d : Nat) : Char :=
  if d < 10 then Char.ofNat (48 + d) else Char.ofNat (87 + d)

/-- Fueled base-36 conversion of a natural number. -/
def natTo36Go : Nat → Nat → List Char
  | 0, _ => []
  | fuel + 1, n =>
    if n < 36 then [b36digit n]
    else natTo36Go fuel (n / 36) ++ [b36digit (n % 36)]

/-- Base-36 representation of a natural number. -/
def natTo36 (n : Nat) : List Char := natTo36Go (n + 1) n

/-- JS `h.toString(36)` for a (signed) integer value. -/
def int36 (i : Int) : List Char :=
  if i < 0 then '-' :: natTo36 i.natAbs else natTo36 i.toNat

/-- `hash(str)` from the source. -/
def jsHash (s : String) : String := String.mk (int36 (jsHashInt s))

/-- The pipeline cache key (part_002 line 360):
`hash(blogContent + JSON.stringify(gscKeywords || []))`, with the
serializer output abstracted as the already-serialized string `g`. -/
def contentKey (blogContent g : String) : String := jsHash (blogContent ++ g)

/-! ## In-flight deduplication (part_002 lines 103-154)

`fetchAllBlogs` runs on a single-threaded event loop; its segment from
entry up to the first `await` is atomic with respect to other request
handlers.  That segment is `dedupPhase1`: check the cache, then either
join the in-flight promise or create it (registering it synchronously
and invoking the producer).  `dedupSettle` is the settlement of the
producer's promise: the creator's `finally` removes the registry entry
whatever the outcome, the producer's own `cacheSet` ran only on success,
and every caller awaiting the promise observes the same outcome. -/

/-- Shared state for one collection key: the cache entry, whether an
in-flight promise is registered, and how often the producer ran. -/
structure DedupState (V : Type) where
  cacheVal : Option V
  inflight : Bool
  invocations : Nat
deriving DecidableEq

/-- What a caller's first atomic segment decided. -/
inductive DedupPath (V : Type) where
  | fromCache (v : V)
  | awaitInflight
  | startedProducer
deriving DecidableEq

/-- The await-free entry segment of `fetchAllBlogs` (lines 104-145). -/
def dedupPhase1 (st : DedupState V) : DedupState V × DedupPath V :=
  match st.cacheVal with
  | some v => (st, .fromCache v)
  | none =>
    if st.inflight then (st, .awaitInflight)
    else ({ st with inflight := true, invocations := st.invocations + 1 }, .startedProducer)

/-- Settlement of the producer's promise (lines 115-153): on success the
producer cached its value; the `finally` clears the registry entry
unconditionally. -/
def dedupSettle (st : DedupState V) (outcome : Except E V) : DedupState V :=
  { st with
    cacheVal := match outcome with | .ok v => some v | .error _ => st.cacheVal
    inflight := false }

/-- The value a caller ends up with, given how its first segment exited
and how the promise settled. -/
def dedupResult (p : DedupPath V) (outcome : Except E V) : Except E V :=
  match p with
  | .fromCache v => .ok v
  | .awaitInflight => outcome
  | .startedProducer => outcome

/-- Two callers whose entry segments both run before the producer
settles, starting from an empty cache and registry: results of both
callers and the final state. -/
def dedupTwoCallers (outcome : Except E V) : Except E V × Except E V × DedupState V :=
  let s0 : DedupState V := ⟨none, false, 0⟩
  let a := dedupPhase1 s0
  let b := dedupPhase1 a.1
  (dedupResult a.2 outcome, dedupResult b.2 outcome, dedupSettle b.1 outcome)

/-! ## JSON.parse

A faithful executable model of `JSON.parse` on the JSON grammar:
`element = ws value ws`, values are objects, arrays, strings, numbers,
`true`, `false`, `null`; strings reject raw control characters and
accept exactly the JSON escapes; numbers follow the JSON number grammar
(no leading zeros, mandatory digits in fraction/exponent).  Parse
failure (JS: a thrown `SyntaxError`) is `none`.  The fuel argument only
bounds the recursion; `2 * length + 4` always suffices because every
descent or loop iteration first consumes at least one non-whitespace
character.  Numbers are kept as their lexemes: no arithmetic is ever
performed on them downstream. -/

/-- A parsed JSON value. -/
inductive Json where
  | null
  | bool (b : Bool)
  | num (lexeme : List Char)
  | str (s : List Char)
  | arr (xs : List Json)
  | obj (kvs : List (List Char × Json))

/-- JSON whitespace (space, tab, line feed, carriage return). -/
def jsonWS (c : Char) : Bool := c == ' ' || c == '\t' || c == '\n' || c == '\r'

/-- Drop leading JSON whitespace. -/
def skipWs : List Char → List Char
  | [] => []
  | c :: t => if jsonWS c then skipWs t else c :: t

/-- Hex digit value. -/
def hexVal (c : Char) : Option Nat :=
  if 48 ≤ c.toNat ∧ c.toNat ≤ 57 then some (c.toNat - 48)
  else if 97 ≤ c.toNat ∧ c.toNat ≤ 102 then some (c.toNat - 87)
  else if 65 ≤ c.toNat ∧ c.toNat ≤ 70 then some (c.toNat - 55)
  else none

/-- Decimal digit test. -/
def digitB (c : Char) : Bool := 48 ≤ c.toNat ∧ c.toNat ≤ 57

/-- String body parser, after the opening quote: returns the decoded
content and the rest after the closing quote.  A `\uXXXX` high surrogate
followed by a `\uXXXX` low surrogate is combined into one scalar (JS
strings are UTF-16; Lean `Char` holds scalars, so a lone surrogate is
mapped through `Char.ofNat`'s fallback). -/
def jpString : Nat → List Char → Option (List Char × List Char)
  | 0, _ => none
  | fuel + 1, s =>
    match s with
    | [] => none
    | c :: t =>
      if c = '"' then some ([], t)
      else if c = '\\' then
        match t with
        | [] => none
        | e :: t2 =>
          if e = '"' ∨ e = '\\' ∨ e = '/' then
            (jpString fuel t2).map fun pr => (e :: pr.1, pr.2)
          else if e = 'b' then (jpString fuel t2).map fun pr => (Char.ofNat 8 :: pr.1, pr.2)
          else if e = 'f' then (jpString fuel t2).map fun pr => (Char.ofNat 12 :: pr.1, pr.2)
          else if e = 'n' then (jpString fuel t2).map fun pr => ('\n' :: pr.1, pr.2)
          else if e = 'r' then (jpString fuel t2).map fun pr => ('\r' :: pr.1, pr.2)
          else if e = 't' then (jpString fuel t2).map fun pr => ('\t' :: pr.1, pr.2)
          else if e = 'u' then
            match t2 with
            | h1 :: h2 :: h3 :: h4 :: t3 =>
              match hexVal h1, hexVal h2, hexVal h3, hexVal h4 with
              | some a, some b, some c2, some d =>
                let u := ((a * 16 + b) * 16 + c2) * 16 + d
                if 55296 ≤ u ∧ u ≤ 56319 then
                  match t3 with
                  | '\\' :: 'u' :: g1 :: g2 :: g3 :: g4 :: t4 =>
                    match hexVal g1, hexVal g2, hexVal g3, hexVal g4 with
                    | some a2, some b2, some c3, some d2 =>
                      let l := ((a2 * 16 + b2) * 16 + c3) * 16 + d2
                      if 56320 ≤ l ∧ l ≤ 57343 then
                        let cp := 65536 + (u - 55296) * 1024 + (l - 56320)
                        (jpString fuel t4).map fun pr => (Char.ofNat cp :: pr.1, pr.2)
                      else (jpString fuel t3).map fun pr => (Char.ofNat u :: pr.1, pr.2)
                    | _, _, _, _ => (jpString fuel t3).map fun pr => (Char.ofNat u :: pr.1, pr.2)
                  | _ => (jpString fuel t3).map fun pr => (Char.ofNat u :: pr.1, pr.2)
                else (jpString fuel t3).map fun pr => (Char.ofNat u :: pr.1, pr.2)
              | _, _, _, _ => none
            | _ => none
          else none
      else if c.toNat < 32 then none
      else (jpString fuel t).map fun pr => (c :: pr.1, pr.2)

/-- Number lexer following the JSON grammar; returns lexeme and rest. -/
def jpNumber (s : List Char) : Option (List Char × List Char) :=
  let (neg, s1) : List Char × List Char :=
    match s with
    | '-' :: t => (['-'], t)
    | _ => ([], s)
  let ipart : Option (List Char × List Char) :=
    match s1 with
    | '0' :: t => some (['0'], t)
    | c :: t =>
      if digitB c ∧ ¬ (c = '0') then
        some (c :: t.takeWhile digitB, t.dropWhile digitB)
      else none
    | [] => none
  match ipart with
  | none => none
  | some (ids, s2) =>
    let fpart : Option (List Char × List Char) :=
      match s2 with
      | '.' :: t =>
        match t.takeWhile digitB with
        | [] => none
        | ds => some ('.' :: ds, t.dropWhile digitB)
      | _ => some ([], s2)
    match fpart with
    | none => none
    | some (fds, s3) =>
      let epart : Option (List Char × List Char) :=
        match s3 with
        | c :: t =>
          if c = 'e' ∨ c = 'E' then
            let (sgn, t2) : List Char × List Char :=
              match t with
              | '+' :: t2 => (['+'], t2)
              | '-' :: t2 => (['-'], t2)
              | _ => ([], t)
            match t2.takeWhile digitB with
            | [] => none
            | ds => some (c :: sgn ++ ds, t2.dropWhile digitB)
          else some ([], s3)
        | [] => some ([], s3)
      match epart with
      | none => none
      | some (eds, s4) => some (neg ++ ids ++ fds ++ eds, s4)

mutual

/-- Value parser (after leading whitespace was consumed by the caller). -/
def jpValue : Nat → List Char → Option (Json × List Char)
  | 0, _ => none
  | fuel + 1, s =>
    match s with
    | [] => none
    | c :: t =>
      if c = '{' then
        match skipWs t with
        | '}' :: r => some (.obj [], r)
        | s1 => (jpObjLoop fuel s1).map fun pr => (.obj pr.1, pr.2)
      else if c = '[' then
        match skipWs t with
        | ']' :: r => some (.arr [], r)
        | s1 => (jpArrLoop fuel s1).map fun pr => (.arr pr.1, pr.2)
      else if c = '"' then
        (jpString (fuel + 1) t).map fun pr => (.str pr.1, pr.2)
      else if c = 't' then
        match s with
        | 't' :: 'r' :: 'u' :: 'e' :: r => some (.bool true, r)
        | _ => none
      else if c = 'f' then
        match s with
        | 'f' :: 'a' :: 'l' :: 's' :: 'e' :: r => some (.bool false, r)
        | _ => none
      else if c = 'n' then
        match s with
        | 'n' :: 'u' :: 'l' :: 'l' :: r => some (.null, r)
        | _ => none
      else
        (jpNumber s).map fun pr => (.num pr.1, pr.2)

/-- Array elements: `element (',' element)* ']'` with no trailing comma. -/
def jpArrLoop : Nat → List Char → Option (List Json × List Char)
  | 0, _ => none
  | fuel + 1, s =>
    match jpValue fuel (skipWs s) with
    | none => none
    | some (v, r1) =>
      match skipWs r1 with
      | ']' :: r2 => some ([v], r2)
      | ',' :: r2 => (jpArrLoop fuel r2).map fun pr => (v :: pr.1, pr.2)
      | _ => none

/-- Object members: `string ws ':' element (',' …)* '}'`. -/
def jpObjLoop : Nat → List Char → Option (List (List Char × Json) × List Char)
  | 0, _ => none
  | fuel + 1, s =>
    match skipWs s with
    | '"' :: t =>
      match jpString (fuel + 1) t with
      | none => none
      | some (key, r1) =>
        match skipWs r1 with
        | ':' :: r2 =>
          match jpValue fuel (skipWs r2) with
          | none => none
          | some (v, r3) =>
            match skipWs r3 with
            | '}' :: r4 => some ([(key, v)], r4)
            | ',' :: r4 => (jpObjLoop fuel r4).map fun pr => ((key, v) :: pr.1, pr.2)
            | _ => none
        | _ => none
    | _ => none

end

/-- `JSON.parse`: whole input must be consumed up to whitespace. -/
def jsonParse (s : List Char) : Option Json :=
  match jpValue (2 * s.length + 4) (skipWs s) with
  | some (v, r) => if skipWs r = [] then some v else none
  | none => none

/-! ## Query-stage parsing (part_002 lines 395-401; part_001 lines 556-563)

```js
let queries = [];
try {
  queries = JSON.parse(qRes.content[0].text.replace(/```json\n?|```\n?/g, '').trim());
} catch {
  const m = qRes.content[0].text.match(/\[[\s\S]*?\]/);
  queries = m ? JSON.parse(m[0]) : [];
}
```
The fallback `JSON.parse(m[0])` is *not* wrapped in a try, so its
exception escapes the parsing step. -/

/-- Global replace of ```` ```json\n? ```` or ```` ```\n? ```` by the
empty string (the backquote character is written via its code 96); the
fuel (`length` at the top call) only bounds the recursion, every step
consumes at least one character. -/
def stripFencesGo : Nat → List Char → List Char
  | 0, s => s
  | fuel + 1, s =>
    match s with
    | [] => []
    | c :: t =>
      if c.toNat = 96 then
        match t with
        | c2 :: c3 :: rest =>
          if c2.toNat = 96 ∧ c3.toNat = 96 then
            match rest with
            | 'j' :: 's' :: 'o' :: 'n' :: r2 =>
              match r2 with
              | '\n' :: r3 => stripFencesGo fuel r3
              | _ => stripFencesGo fuel r2
            | '\n' :: r3 => stripFencesGo fuel r3
            | _ => stripFencesGo fuel rest
          else c :: stripFencesGo fuel t
        | _ => c :: stripFencesGo fuel t
      else c :: stripFencesGo fuel t

/-- The fence replace at its natural fuel. -/
def stripFences (s : List Char) : List Char := stripFencesGo s.length s

/-- JS `String.prototype.trim` whitespace (ASCII part plus NBSP). -/
def jsWS (c : Char) : Bool :=
  c == ' ' || c == '\t' || c == '\n' || c == '\r' ||
  c.toNat = 11 || c.toNat = 12 || c.toNat = 160

/-- JS `s.trim()`. -/
def jsTrim (s : List Char) : List Char :=
  ((s.dropWhile jsWS).reverse.dropWhile jsWS).reverse

/-- Everything from the first `[` up to and including the first `]`
after it, or nothing — the match of `/\[[\s\S]*?\]/`. -/
def upToBr : List Char → Option (List Char)
  | [] => none
  | c :: t => if c = ']' then some [c] else (upToBr t).map (c :: ·)

/-- The regex fallback `text.match(/\[[\s\S]*?\]/)`. -/
def firstBracket : List Char → Option (List Char)
  | [] => none
  | '[' :: t => (upToBr t).map ('[' :: ·)
  | _ :: t => firstBracket t

/-- The whole query-parsing step; `none` is an exception escaping it. -/
def parseQueries (text : String) : Option Json :=
  match jsonParse (jsTrim (stripFences text.toList)) with
  | some v => some v
  | none =>
    match firstBracket text.toList with
    | some sub => jsonParse sub
    | none => some (.arr [])

/-- Comma-join used by JS array-to-string coercion. -/
def joinComma : List (List Char) → List Char
  | [] => []
  | [x] => x
  | x :: xs => x ++ ',' :: joinComma xs

/-- JS string coercion of a parsed value (only the `.str` branch is ever
exercised by well-formed LLM responses, which produce string arrays).
The fuel bounds array nesting; a value parsed from a text of length `L`
has depth at most `L`. -/
def jsToStrGo : Nat → Json → List Char
  | _, .str s => s
  | _, .num lex => lex
  | _, .bool true => ['t','r','u','e']
  | _, .bool false => ['f','a','l','s','e']
  | _, .null => ['n','u','l','l']
  | _, .obj _ => "[object Object]".toList
  | 0, .arr _ => []
  | fuel + 1, .arr xs => joinComma (xs.map (jsToStrGo fuel))

/-- The parsed value as the `queries` list the search loop iterates
(`fuel` bounds the string-coercion depth).  Non-array values are
dispatched by what the loop then does with them: `null` throws reading
`.length`; a nonempty string passes the length guard and then throws
because `"…".slice(i,j).map` is not a function; numbers, booleans and
objects have `length === undefined`, so the loop bound
`Math.min(undefined, 8)` is `NaN` and the loop body never runs. -/
def jsonQueryList (fuel : Nat) : Json → Except String (List String)
  | .arr xs => .ok (xs.map fun v => String.mk (jsToStrGo fuel v))
  | .null => .error "TypeError"
  | .str s => if s = [] then .ok [] else .error "TypeError"
  | _ => .ok []

/-! ## Search aggregation (part_002 lines 404-425; part_001 lines 570-602)

```js
let allResults = [];
const batch = 3;
for (let i = 0; i < Math.min(queries.length, 8); i += batch) {
  const slice = queries.slice(i, i + batch);
  const results = await Promise.all(slice.map(async q => {
    const [b, g] = await Promise.all([braveSearch(q, braveKey, 3), googleSearch(q, 3)]);
    searchCount++;
    return { query: q, results: [...b, ...g] };
  }));
  allResults.push(...results);
  …
}
const seen = new Set();
const unique = [];
for (const g of allResults) for (const r of g.results) {
  if (!seen.has(r.url)) { seen.add(r.url); unique.push({ ...r, query: g.query }); }
}
```
The two providers are oracles `brave google : String → List SResult`;
`Promise.all` preserves order, so a batch contributes its groups in
slice order and `searchCount` grows by the slice length.  The loop index
takes values `0, 3, 6` at most (guard `i < min(length, 8)`), so fuel `8`
is more than enough iterations. -/

/-- A normalized search result. -/
structure SResult where
  title : String
  url : String
  snippet : String
  source : String
deriving DecidableEq

/-- The batched search loop; returns the query groups in order and the
final `searchCount`. -/
def runBatchesGo (queries : List String) (brave google : String → List SResult) :
    Nat → Nat → List (String × List SResult) × Nat
  | 0, _ => ([], 0)
  | fuel + 1, i =>
    if i < min queries.length 8 then
      let slice := (queries.drop i).take 3
      let groups := slice.map fun q => (q, brave q ++ google q)
      let r2 := runBatchesGo queries brave google fuel (i + 3)
      (groups ++ r2.1, slice.length + r2.2)
    else ([], 0)

/-- The search stage: groups plus the reported "searches used" count. -/
def runBatches (queries : List String) (brave google : String → List SResult) :
    List (String × List SResult) × Nat :=
  runBatchesGo queries brave google 8 0

/-- Inner dedup loop over one group's results; threads the seen set. -/
def dedupInner (seen : List String) (q : String) :
    List SResult → List (SResult × String) × List String
  | [] => ([], seen)
  | r :: rs =>
    if seen.contains r.url then dedupInner seen q rs
    else
      let t := dedupInner (r.url :: seen) q rs
      ((r, q) :: t.1, t.2)

/-- Outer dedup loop over the groups. -/
def dedupGo (seen : List String) : List (String × List SResult) → List (SResult × String)
  | [] => []
  | g :: gs =>
    let pr := dedupInner seen g.1 g.2
    pr.1 ++ dedupGo pr.2 gs

/-- Global URL dedup of the aggregated groups, first occurrence wins. -/
def dedupGroups (gs : List (String × List SResult)) : List (SResult × String) :=
  dedupGo [] gs

/-- The groups flattened to query-tagged results, in aggregation order. -/
def flatTagged (gs : List (String × List SResult)) : List (SResult × String) :=
  gs.flatMap fun g => g.2.map fun r => (r, g.1)

/-- First-occurrence filter on a flat list (used to state the dedup
property; spec §4.6: "first occurrence wins"). -/
def keepFirst (seen : List String) : List (SResult × String) → List (SResult × String)
  | [] => []
  | t :: ts =>
    if seen.contains t.1.url then keepFirst seen ts
    else t :: keepFirst (t.1.url :: seen) ts

/-- The seen-set as it stands after `keepFirst seen l` has processed `l`
(used to compose the nested dedup loops into the flat one). -/
def kfSeen (seen : List String) : List (SResult × String) → List String
  | [] => seen
  | t :: ts =>
    if seen.contains t.1.url then kfSeen seen ts
    else kfSeen (t.1.url :: seen) ts

/-! ## The smartcheck pipeline (part_002 lines 351-500)

The run after validation and rate limiting: cache check, widget protect,
query generation (LLM oracle `qText`), permissive query parsing, batched
search, rewrite (LLM oracle `rwText`, code fences stripped), widget
restore, cache store.  Each oracle is `.error` when the corresponding
awaited call rejected (timeout race or API failure).  The wall-clock
`elapsed` stat is not modelled.  On a cache hit the response carries
`fromCache: true` — the `Bool` in the result. -/

/-- The triple backquote written without backquote characters. -/
def tick3 : List Char := [Char.ofNat 96, Char.ofNat 96, Char.ofNat 96]

/-- The anchored replace `^```(?:html)?\n?`. -/
def stripStartFence (s : List Char) : List Char :=
  match s with
  | a :: b :: c :: rest =>
    if a.toNat = 96 ∧ b.toNat = 96 ∧ c.toNat = 96 then
      match rest with
      | 'h' :: 't' :: 'm' :: 'l' :: r2 =>
        match r2 with
        | '\n' :: r3 => r3
        | _ => r2
      | '\n' :: r3 => r3
      | _ => rest
    else s
  | _ => s

/-- The anchored replace `\n?```$`. -/
def stripEndFence (s : List Char) : List Char :=
  match s.reverse with
  | a :: b :: c :: rest =>
    if a.toNat = 96 ∧ b.toNat = 96 ∧ c.toNat = 96 then
      match rest with
      | '\n' :: r2 => r2.reverse
      | _ => rest.reverse
    else s
  | _ => s

/-- Lines 475-477: strip fences when the text starts with one, then trim. -/
def cleanRewrite (s : List Char) : List Char :=
  jsTrim (if pfxB tick3 s then stripEndFence (stripStartFence s) else s)

/-- The analysis-cache TTL (24h, part_002 line 27). -/
def ANALYSIS_TTL : Int := 86400000

/-- The reported stats block. -/
structure SCStats where
  searches : Nat
  results : Nat
  gscKeywords : Nat
  widgetsProtected : Nat
deriving DecidableEq

/-- The pipeline result that is cached and returned. -/
structure SCResult where
  updatedContent : String
  stats : SCStats
  research : List (SResult × String)
deriving DecidableEq

/-- One smartcheck run over the given oracles; returns the outcome and
the analysis cache afterwards. -/
def smartcheck (cache : List (String × CEntry SCResult)) (now : Int)
    (blogContent gscSer : String) (gscCount : Nat)
    (qText : Except String String)
    (brave google : String → List SResult)
    (rwText : Except String String) :
    Except String (SCResult × Bool) × List (String × CEntry SCResult) :=
  let key := contentKey blogContent gscSer
  match cacheGet cache key ANALYSIS_TTL now with
  | some r => (.ok (r, true), cache)
  | none =>
    let pw := protectWidgets blogContent
    match qText with
    | .error e => (.error e, cache)
    | .ok qt =>
      match parseQueries qt with
      | none => (.error "SyntaxError", cache)
      | some qv =>
        match jsonQueryList qt.length qv with
        | .error e => (.error e, cache)
        | .ok queries =>
          let sr := runBatches queries brave google
          let uniq := dedupGroups sr.1
          match rwText with
          | .error e => (.error e, cache)
          | .ok rt =>
            let updated := restoreWidgets (String.mk (cleanRewrite rt.toList)) pw.widgets
            let result : SCResult :=
              ⟨updated, ⟨sr.2, uniq.length, gscCount, pw.widgets.length⟩, uniq.take 15⟩
            (.ok (result, false), cacheSet cache key result now)

end Backend



namespace Backend

/-! # Theorems -/

/-! ## C5: cache TTL boundary -/

theorem cacheGet_cacheSet {α : Type} (m : List (String × CEntry α)) (k : String)
    (v : α) (ttl T now : Int) :
    cacheGet (cacheSet m k v T) k ttl now = if now - T > ttl then none else some v := by
  simp [cacheGet, cacheSet, mapGet, List.find?]

theorem getFromCache_cacheSet {α : Type} (m : List (String × CEntry α)) (k : String)
    (v : α) (ttl T now : Int) :
    getFromCache (cacheSet m k v T) k ttl now = if now - T < ttl then some v else none := by
  simp [getFromCache, isCacheValid, cacheSet, mapGet, List.find?]

/-- C5 counterexample: an entry written at time `T = 0` with `TTL = 10`
is still returned by part_002's `cacheGet` at time `T + TTL = 10`
(age `> ttl` is required to expire), contradicting the claim that the
entry is absent for every read at time `≥ T + TTL`. -/
theorem c5_cache_boundary_cex :
    cacheGet (cacheSet ([] : List (String × CEntry Nat)) "k" 42 0) "k" 10 10 = some 42 := by
  decide

/-- C5 (amended): an entry written at time `T` is returned by both read
paths strictly before `T + TTL`; at and after `T + TTL` the part_001
reader `getFromCache` reports it absent as claimed, but the part_002
reader `cacheGet` still returns it at exactly `T + TTL` and reports it
absent only strictly after. -/
theorem c5_cache_ttl_boundary {α : Type} (m : List (String × CEntry α)) (k : String)
    (v : α) (ttl T now : Int) :
    cacheGet (cacheSet m k v T) k ttl now = (if now - T > ttl then none else some v) ∧
    getFromCache (cacheSet m k v T) k ttl now = (if now - T < ttl then some v else none) :=
  ⟨cacheGet_cacheSet m k v ttl T now, getFromCache_cacheSet m k v ttl T now⟩

/-! ## C9: rate limiter boundary -/

theorem rateCalls_steady (now reset : Int) (h : ¬ now > reset) :
    ∀ (j c : Nat), c + j ≤ 30 → 1 ≤ c →
      rateCalls now (some ⟨c, reset⟩) j = (List.replicate j true, some ⟨c + j, reset⟩) := by
  intro j
  induction j with
  | zero => intro c _ _; simp [rateCalls]
  | succ j ih =>
    intro c hcj hc
    have hlt : c < RATE_MAX := by simp [RATE_MAX]; omega
    have step : rateOk now (some ⟨c, reset⟩) = (true, ⟨c + 1, reset⟩) := by
      simp [rateOk, h]
      omega
    have := ih (c + 1) (by omega) (by omega)
    simp [rateCalls, step, this, List.replicate_succ]
    omega

theorem rateCalls_split (now : Int) (st : Option RateRecord) (m n : Nat) :
    rateCalls now st (m + n) =
      ((rateCalls now st m).1 ++ (rateCalls now (rateCalls now st m).2 n).1,
        (rateCalls now (rateCalls now st m).2 n).2) := by
  induction m generalizing st with
  | zero => simp [rateCalls]
  | succ m ih => simp [rateCalls, Nat.succ_add, ih]

/-- C9: with `max = 30` and a fresh window, the first 30 calls at time
`now` are allowed and the 31st is rejected; a call after the window's
reset time starts a new record with count 1 and is allowed; and a stored
count never exceeds the maximum. -/
theorem c9_rate_limiter_boundary :
    (∀ now : Int, rateCalls now none 31 =
        (List.replicate 30 true ++ [false], some ⟨30, now + RATE_WINDOW⟩)) ∧
    (∀ (now : Int) (r : RateRecord), now > r.reset →
        rateOk now (some r) = (true, ⟨1, now + RATE_WINDOW⟩)) ∧
    (∀ (now : Int) (st : Option RateRecord),
        (∀ r, st = some r → r.count ≤ RATE_MAX) → (rateOk now st).2.count ≤ RATE_MAX) := by
  refine ⟨?_, ?_, ?_⟩
  · intro now
    have hw : ¬ now > now + RATE_WINDOW := by simp only [RATE_WINDOW]; omega
    have h1 : rateCalls now none 1 = ([true], some ⟨1, now + RATE_WINDOW⟩) := by
      simp [rateCalls, rateOk]
    have h29 := rateCalls_steady now (now + RATE_WINDOW) hw 29 1 (by omega) (by omega)
    have hrej : rateOk now (some ⟨30, now + RATE_WINDOW⟩) = (false, ⟨30, now + RATE_WINDOW⟩) := by
      simp [rateOk, RATE_MAX, hw]
    have hsplit := rateCalls_split now none 1 30
    have hsplit2 := rateCalls_split now (some ⟨1, now + RATE_WINDOW⟩) 29 1
    have hone : rateCalls now (some ⟨30, now + RATE_WINDOW⟩) 1 =
        ([false], some ⟨30, now + RATE_WINDOW⟩) := by
      simp [rateCalls, hrej]
    rw [show (31 : Nat) = 1 + 30 from rfl] at *
    rw [hsplit, h1]
    simp only
    rw [show (30 : Nat) = 29 + 1 from rfl, hsplit2, h29]
    simp [hone, List.replicate_succ]
  · intro now r h
    simp [rateOk, h]
  · intro now st h
    match st with
    | none => simp [rateOk, RATE_MAX]
    | some r =>
      have := h r rfl
      simp only [rateOk]
      split
      · simp [RATE_MAX]
      · split
        · simpa using this
        · simp
          omega

/-- C9 witness: the window-reset and invariant clauses applied at a
concrete record. -/
theorem c9_rate_limiter_boundary_witness :
    ((5 : Int) > (0 : Int) ∧ rateOk 5 (some ⟨3, 0⟩) = (true, ⟨1, 5 + RATE_WINDOW⟩)) ∧
    (rateOk 7 (some ⟨30, 100⟩)).2.count ≤ RATE_MAX :=
  ⟨⟨by decide, c9_rate_limiter_boundary.2.1 5 ⟨3, 0⟩ (by decide)⟩,
    c9_rate_limiter_boundary.2.2 7 (some ⟨30, 100⟩) (by intro r hr; cases hr; decide)⟩


/-! ## C2: in-flight deduplication -/

/-- C2: when two callers enter `fetchAllBlogs` for the same collection
key before the producer settles (empty cache, empty registry), the
producer is invoked exactly once, both callers receive the producer's
one outcome (the same value on success, the same failure on rejection),
and after settlement the in-flight registry entry is removed.  The model
is sound because the segment from entry to the first `await` contains no
suspension point, so the two entry segments cannot interleave; the two
callers are symmetric, so their order is immaterial. -/
theorem c2_inflight_dedup {V E : Type} (outcome : Except E V) :
    (dedupTwoCallers outcome).1 = outcome ∧
    (dedupTwoCallers outcome).2.1 = outcome ∧
    (dedupTwoCallers outcome).2.2.invocations = 1 ∧
    (dedupTwoCallers outcome).2.2.inflight = false :=
  ⟨rfl, rfl, rfl, rfl⟩

/-! ## C7: resilient fetch retry policy -/

theorem fetchRGo_step (outcome : Nat → Except String HResp) (i left : Nat) :
    fetchRGo outcome i (left + 1) =
      match outcome i with
      | .ok r => (some (.ok r), [])
      | .error e =>
        if left = 0 then (some (.error e), [])
        else ((fetchRGo outcome (i + 1) left).1,
          backoffDelay i :: (fetchRGo outcome (i + 1) left).2) := rfl

theorem fetchRGo_ok (outcome : Nat → Except String HResp) (r : HResp) :
    ∀ (left i k : Nat), i ≤ k → k ≤ i + left →
      (∀ j, i ≤ j → j < k → ∃ e, outcome j = .error e) → outcome k = .ok r →
      fetchRGo outcome i (left + 1) =
        (some (.ok r), (List.range' i (k - i)).map backoffDelay) := by
  intro left
  induction left with
  | zero =>
    intro i k hik hk hfail hok
    have : k = i := by omega
    subst this
    simp [fetchRGo, hok]
  | succ left ih =>
    intro i k hik hk hfail hok
    by_cases hki : k = i
    · subst hki
      simp [fetchRGo_step, hok]
    · obtain ⟨e, he⟩ := hfail i (by omega) (by omega)
      have hrec := ih (i + 1) k (by omega) (by omega)
        (fun j h1 h2 => hfail j (by omega) h2) hok
      have hrange : List.range' i (k - i) = i :: List.range' (i + 1) (k - (i + 1)) := by
        have : k - i = (k - (i + 1)) + 1 := by omega
        rw [this, List.range'_succ]
      rw [fetchRGo_step, he]
      simp [hrec, hrange]

theorem fetchRGo_allfail (outcome : Nat → Except String HResp) :
    ∀ (left i : Nat),
      (∀ j, i ≤ j → j ≤ i + left → ∃ e, outcome j = .error e) →
      fetchRGo outcome i (left + 1) =
        (some (outcome (i + left)), (List.range' i left).map backoffDelay) := by
  intro left
  induction left with
  | zero =>
    intro i hfail
    obtain ⟨e, he⟩ := hfail i (by omega) (by omega)
    simp [fetchRGo_step, he]
  | succ left ih =>
    intro i hfail
    obtain ⟨e, he⟩ := hfail i (by omega) (by omega)
    have hrec := ih (i + 1) (fun j h1 h2 => hfail j (by omega) (by omega))
    have : i + 1 + left = i + (left + 1) := by omega
    rw [this] at hrec
    rw [fetchRGo_step, he]
    simp [hrec, List.range'_succ]

/-- C7: over any sequence of attempt outcomes, a received response —
whatever its HTTP status — is returned as-is with no further attempt;
the delay recorded after failed attempt `a` is
`min(1000 * 2^(a-1), 5000)`; and when every attempt fails at the
transport level, the last attempt's failure is what the caller gets. -/
theorem c7_fetch_retry_policy :
    (∀ (outcome : Nat → Except String HResp) (retries k : Nat) (r : HResp),
      1 ≤ k → k ≤ retries →
      (∀ j, 1 ≤ j → j < k → ∃ e, outcome j = .error e) → outcome k = .ok r →
      fetchR outcome retries =
        (some (.ok r), (List.range' 1 (k - 1)).map fun a => min (1000 * 2 ^ (a - 1)) 5000)) ∧
    (∀ (outcome : Nat → Except String HResp) (retries : Nat),
      1 ≤ retries → (∀ j, 1 ≤ j → j ≤ retries → ∃ e, outcome j = .error e) →
      fetchR outcome retries =
        (some (outcome retries),
          (List.range' 1 (retries - 1)).map fun a => min (1000 * 2 ^ (a - 1)) 5000)) := by
  constructor
  · intro outcome retries k r hk hkr hfail hok
    have hr : retries = (retries - 1) + 1 := by omega
    have := fetchRGo_ok outcome r (retries - 1) 1 k (by omega) (by omega) hfail hok
    rw [fetchR, hr, this]
    simp [backoffDelay]
  · intro outcome retries hr hfail
    have hr1 : retries = (retries - 1) + 1 := by omega
    have := fetchRGo_allfail outcome (retries - 1) 1
      (fun j h1 h2 => hfail j h1 (by omega))
    rw [fetchR, hr1, this]
    have h2 : 1 + (retries - 1) = retries := by omega
    rw [h2]
    simp [backoffDelay]
    exact congrArg outcome hr1

/-- C7 witness: attempt 1 fails at the transport level, attempt 2
receives a 500 response; `fetchR` returns that response (no retry on an
HTTP-level error) after a single 1000 ms backoff. -/
theorem c7_fetch_retry_policy_witness :
    fetchR (fun i => if i = 1 then .error "net" else .ok ⟨500⟩) 3 =
      (some (.ok ⟨500⟩), [1000]) := by
  have h := c7_fetch_retry_policy.1 (fun i => if i = 1 then .error "net" else .ok ⟨500⟩)
    3 2 ⟨500⟩ (by omega) (by omega)
    (fun j h1 h2 => by
      have : j = 1 := by omega
      subst this
      exact ⟨"net", rfl⟩)
    (by norm_num)
  simpa using h


/-! ## C10: 5000-character hash prefix -/

theorem take_min_self (l : List Nat) (k : Nat) : l.take (min l.length k) = l.take k := by
  rcases Nat.le_total l.length k with h | h
  · rw [min_eq_left h, List.take_length, List.take_of_length_le h]
  · rw [min_eq_right h]

/-- C10: the cache-key hash reads only the first 5000 UTF-16 code units
of its input, so any two (content ++ serialized-keywords) strings that
agree on those units get the same pipeline cache key, and a pipeline
result cached under one key is served for the other request (whenever
the entry's age admits a hit at all). -/
theorem c10_hash_prefix_collision (c1 g1 c2 g2 : String)
    (h : (utf16 (c1 ++ g1)).take 5000 = (utf16 (c2 ++ g2)).take 5000) :
    contentKey c1 g1 = contentKey c2 g2 ∧
    ∀ (m : List (String × CEntry SCResult)) (r : SCResult) (ttl T now : Int),
      cacheGet (cacheSet m (contentKey c1 g1) r T) (contentKey c2 g2) ttl now =
        (if now - T > ttl then none else some r) := by
  have hint : jsHashInt (c1 ++ g1) = jsHashInt (c2 ++ g2) := by
    rw [jsHashInt, jsHashInt]
    simp only [take_min_self]
    rw [h]
  have hkey : contentKey c1 g1 = contentKey c2 g2 := by
    rw [contentKey, contentKey, jsHash, jsHash, hint]
  exact ⟨hkey, fun m r ttl T now => by rw [hkey]; exact cacheGet_cacheSet m _ r ttl T now⟩

theorem utf16_replicate_bmp (c : Char) (hc : c.toNat < 65536) (n : Nat) :
    (List.replicate n c).flatMap utf16units = List.replicate n c.toNat := by
  induction n with
  | zero => simp
  | succ n ih => simp [List.replicate_succ, utf16units, hc, ih]

/-- C10 witness: two inputs that agree on their first 5000 characters
and differ afterwards get the same cache key. -/
theorem c10_hash_prefix_collision_witness :
    (utf16 (String.mk (List.replicate 5000 'a') ++ "x")).take 5000 =
      (utf16 (String.mk (List.replicate 5000 'a') ++ "y")).take 5000 ∧
    contentKey (String.mk (List.replicate 5000 'a')) "x" =
      contentKey (String.mk (List.replicate 5000 'a')) "y" := by
  have key : ∀ t : String, (utf16 (String.mk (List.replicate 5000 'a') ++ t)).take 5000 =
      List.replicate 5000 ('a'.toNat) := by
    intro t
    have hdata : (String.mk (List.replicate 5000 'a') ++ t).toList =
        List.replicate 5000 'a' ++ t.toList := by
      show (String.mk (List.replicate 5000 'a') ++ t).data =
        List.replicate 5000 'a' ++ t.data
      rw [String.data_append]
    rw [utf16, hdata, List.flatMap_append,
      utf16_replicate_bmp 'a' (by decide) 5000]
    exact List.take_left' (by rw [List.length_replicate])
  have h := (key "x").trans (key "y").symm
  exact ⟨h, (c10_hash_prefix_collision _ "x" _ "y" h).1⟩

/-! ## C4: query-generation parsing -/

/-- C4 counterexample: on the response text `see [oops] here` the direct
parse fails and the fallback `JSON.parse` of the extracted substring
`[oops]` throws — the exception escapes the parsing step instead of
yielding an empty query list, refuting the claim that the stage never
throws. -/
theorem c4_parse_cex : parseQueries "see [oops] here" = none := rfl

/-- C4 (amended): the parsing step throws only when the direct parse
fails and the extracted bracket substring is itself invalid JSON; when
no bracket substring exists the stage yields the empty array, and with
no bracket substring it never throws. -/
theorem c4_parse_policy (text : String) :
    (parseQueries text = none →
      ∃ sub, firstBracket text.toList = some sub ∧ jsonParse sub = none) ∧
    (jsonParse (jsTrim (stripFences text.toList)) = none →
      firstBracket text.toList = none → parseQueries text = some (.arr [])) ∧
    (firstBracket text.toList = none → parseQueries text ≠ none) := by
  rcases hd : jsonParse (jsTrim (stripFences text.toList)) with _ | v
  · rcases hb : firstBracket text.toList with _ | sub
    · refine ⟨?_, ?_, ?_⟩
      · intro h
        unfold parseQueries at h
        rw [hd, hb] at h
        simp at h
      · intro _ _
        unfold parseQueries
        rw [hd, hb]
      · intro _
        unfold parseQueries
        rw [hd, hb]
        simp
    · refine ⟨?_, ?_, ?_⟩
      · intro h
        unfold parseQueries at h
        rw [hd, hb] at h
        exact ⟨sub, rfl, h⟩
      · intro _ hbn
        simp [hb] at hbn
      · intro hbn
        simp [hb] at hbn
  · refine ⟨?_, ?_, ?_⟩
    · intro h
      unfold parseQueries at h
      rw [hd] at h
      simp at h
    · intro hdn
      simp [hd] at hdn
    · intro _
      unfold parseQueries
      rw [hd]
      simp

/-- C4 witness: a response with no bracket substring parses to the empty
query array rather than throwing. -/
theorem c4_parse_policy_witness : parseQueries "hello there" = some (.arr []) :=
  (c4_parse_policy "hello there").2.1 rfl rfl


/-! ## C8: no result cached for a failed run -/

/-- C8: a smartcheck run that ends in any failure (query-generation
rejection or timeout, a query-parse exception, the `TypeError` paths of
a non-list parse, or rewrite rejection or timeout) leaves the analysis
cache exactly as it was; the cache changes only by storing the result of
a successful run under the run's content key. -/
theorem c8_no_cache_on_failure
    (cache : List (String × CEntry SCResult)) (now : Int)
    (blogContent gscSer : String) (gscCount : Nat)
    (qText : Except String String) (brave google : String → List SResult)
    (rwText : Except String String) :
    (∀ e, (smartcheck cache now blogContent gscSer gscCount qText brave google rwText).1 =
        .error e →
      (smartcheck cache now blogContent gscSer gscCount qText brave google rwText).2 = cache) ∧
    ((smartcheck cache now blogContent gscSer gscCount qText brave google rwText).2 ≠ cache →
      ∃ r, (smartcheck cache now blogContent gscSer gscCount qText brave google rwText).1 =
          .ok (r, false) ∧
        (smartcheck cache now blogContent gscSer gscCount qText brave google rwText).2 =
          cacheSet cache (contentKey blogContent gscSer) r now) := by
  unfold smartcheck
  rcases hc : cacheGet cache (contentKey blogContent gscSer) ANALYSIS_TTL now with _ | r0
  · rcases qText with e | qt
    · simp [hc]
    · rcases hp : parseQueries qt with _ | qv
      · simp [hc, hp]
      · rcases hq : jsonQueryList qt.length qv with e | qs
        · simp [hc, hp, hq]
        · rcases rwText with e | rt
          · simp [hc, hp, hq]
          · simp [hc, hp, hq]
  · simp [hc]

/-- C8 witness: a run whose rewrite stage times out leaves the (empty)
cache empty. -/
theorem c8_no_cache_on_failure_witness :
    (smartcheck [] 0 "<p>hi</p>" "[]" 0 (.ok "[\"q\"]") (fun _ => []) (fun _ => [])
      (.error "Rewrite timeout")).2 = [] :=
  (c8_no_cache_on_failure [] 0 "<p>hi</p>" "[]" 0 (.ok "[\"q\"]") (fun _ => []) (fun _ => [])
    (.error "Rewrite timeout")).1 "Rewrite timeout" rfl


/-! ## C6: search aggregation dedup and counting -/

theorem dedupInner_eq (q : String) :
    ∀ (rs : List SResult) (seen : List String),
      dedupInner seen q rs =
        (keepFirst seen (rs.map fun r => (r, q)), kfSeen seen (rs.map fun r => (r, q))) := by
  intro rs
  induction rs with
  | nil => intro seen; rfl
  | cons r rs ih =>
    intro seen
    simp only [dedupInner, List.map_cons, keepFirst, kfSeen]
    by_cases h : r.url ∈ seen
    · simp [h, ih]
    · simp [h, ih]

theorem keepFirst_append (l1 l2 : List (SResult × String)) :
    ∀ seen, keepFirst seen (l1 ++ l2) = keepFirst seen l1 ++ keepFirst (kfSeen seen l1) l2 := by
  induction l1 with
  | nil => intro seen; rfl
  | cons t ts ih =>
    intro seen
    simp only [List.cons_append, keepFirst, kfSeen]
    by_cases h : t.1.url ∈ seen
    · simp [h, ih]
    · simp [h, ih]

theorem dedupGo_eq_keepFirst :
    ∀ (gs : List (String × List SResult)) (seen : List String),
      dedupGo seen gs = keepFirst seen (flatTagged gs) := by
  intro gs
  induction gs with
  | nil => intro seen; rfl
  | cons g gs ih =>
    intro seen
    simp only [dedupGo, dedupInner_eq, flatTagged, List.flatMap_cons]
    rw [keepFirst_append]
    simp only [flatTagged] at ih
    rw [ih]

theorem keepFirst_mem :
    ∀ (l : List (SResult × String)) (seen : List String) (t : SResult × String),
      t ∈ keepFirst seen l → t ∈ l ∧ seen.contains t.1.url = false := by
  intro l
  induction l with
  | nil => intro seen t h; simp [keepFirst] at h
  | cons x ts ih =>
    intro seen t h
    simp only [keepFirst] at h
    by_cases hx : seen.contains x.1.url
    · rw [if_pos hx] at h
      obtain ⟨h1, h2⟩ := ih seen t h
      exact ⟨List.mem_cons_of_mem _ h1, h2⟩
    · rw [if_neg hx] at h
      rcases List.mem_cons.mp h with rfl | h
      · exact ⟨List.mem_cons_self _ _, by simpa using hx⟩
      · obtain ⟨h1, h2⟩ := ih _ t h
        refine ⟨List.mem_cons_of_mem _ h1, ?_⟩
        simp only [List.contains_cons, Bool.or_eq_false_iff] at h2
        exact h2.2

theorem keepFirst_urls_nodup :
    ∀ (l : List (SResult × String)) (seen : List String),
      ((keepFirst seen l).map fun t => t.1.url).Nodup := by
  intro l
  induction l with
  | nil => intro seen; simp [keepFirst]
  | cons x ts ih =>
    intro seen
    simp only [keepFirst]
    by_cases hx : seen.contains x.1.url
    · rw [if_pos hx]; exact ih seen
    · rw [if_neg hx]
      simp only [List.map_cons, List.nodup_cons]
      refine ⟨?_, ih _⟩
      intro hmem
      obtain ⟨t, ht, hurl⟩ := List.mem_map.mp hmem
      have := (keepFirst_mem ts _ t ht).2
      simp only [List.contains_cons, Bool.or_eq_false_iff] at this
      have : (x.1.url == t.1.url) = false := by
        have h2 := this.1
        simpa [BEq.comm] using h2
      rw [hurl] at this
      simp at this

theorem keepFirst_covers :
    ∀ (l : List (SResult × String)) (seen : List String) (t : SResult × String),
      t ∈ l → seen.contains t.1.url = false →
      ∃ t2 ∈ keepFirst seen l, t2.1.url = t.1.url := by
  intro l
  induction l with
  | nil => intro seen t h; simp at h
  | cons x ts ih =>
    intro seen t hmem hns
    simp only [keepFirst]
    by_cases hx : seen.contains x.1.url
    · rw [if_pos hx]
      rcases List.mem_cons.mp hmem with heq | hmem2
      · rw [heq] at hns
        simp at hns hx
        exact absurd hx hns
      · exact ih seen t hmem2 hns
    · rw [if_neg hx]
      rcases List.mem_cons.mp hmem with heq | hmem2
      · exact ⟨x, List.mem_cons_self _ _, by rw [heq]⟩
      · by_cases hurl : t.1.url = x.1.url
        · exact ⟨x, List.mem_cons_self _ _, hurl.symm⟩
        · have hns2 : (x.1.url :: seen).contains t.1.url = false := by
            simp only [List.contains_cons, Bool.or_eq_false_iff]
            exact ⟨by simp [BEq.comm]; exact fun h => hurl h.symm, hns⟩
          obtain ⟨t2, ht2, hu⟩ := ih _ t hmem2 hns2
          exact ⟨t2, List.mem_cons_of_mem _ ht2, hu⟩

theorem keepFirst_is_first :
    ∀ (l : List (SResult × String)) (seen : List String) (t : SResult × String),
      t ∈ keepFirst seen l → l.find? (fun x => x.1.url == t.1.url) = some t := by
  intro l
  induction l with
  | nil => intro seen t h; simp [keepFirst] at h
  | cons x ts ih =>
    intro seen t h
    simp only [keepFirst] at h
    by_cases hx : seen.contains x.1.url
    · rw [if_pos hx] at h
      have hts := (keepFirst_mem ts seen t h).2
      have hne : (x.1.url == t.1.url) = false := by
        by_contra hcon
        have : x.1.url = t.1.url := by
          have := eq_of_beq (Bool.of_not_eq_false hcon)
          exact this
        rw [← this] at hts
        rw [hts] at hx
        cases hx
      rw [List.find?_cons, hne]
      exact ih seen t h
    · rw [if_neg hx] at h
      rcases List.mem_cons.mp h with rfl | h2
      · rw [List.find?_cons]
        simp
      · have hts := (keepFirst_mem ts _ t h2).2
        simp only [List.contains_cons, Bool.or_eq_false_iff] at hts
        have hne : (x.1.url == t.1.url) = false := by
          have := hts.1
          simpa [BEq.comm] using this
        rw [List.find?_cons, hne]
        exact ih _ t h2

theorem runBatchesGo_count (queries : List String) (brave google : String → List SResult) :
    ∀ (fuel i : Nat),
      (runBatchesGo queries brave google fuel i).2 =
        (runBatchesGo queries brave google fuel i).1.length := by
  intro fuel
  induction fuel with
  | zero => intro i; rfl
  | succ fuel ih =>
    intro i
    simp only [runBatchesGo]
    split
    · simp [ih]
    · rfl

/-- C6 counterexample: one query, both providers attempted and both
returning a result — 1 query × 2 providers = 2 attempts — yet the
reported "searches used" counter is 1: it is incremented once per
query, not once per query×provider attempt. -/
theorem c6_searches_counter_cex :
    (runBatches ["q"] (fun _ => [⟨"t1", "u1", "s1", "brave"⟩])
        (fun _ => [⟨"t2", "u2", "s2", "google"⟩])).2 = 1 ∧ (1 : Nat) ≠ 1 * 2 := by
  decide

/-- C6 (amended): after the batched loop, the aggregated unique list is
exactly the first-occurrence-per-url filter of the flattened groups: its
urls are pairwise distinct, every aggregated url is represented, and
each kept entry is the first-seen result with its url (across providers
and queries alike); the "searches used" counter equals the number of
query groups processed — one increment per query, not one per
query×provider attempt. -/
theorem c6_search_dedup_and_count (queries : List String)
    (brave google : String → List SResult) :
    (runBatches queries brave google).2 = (runBatches queries brave google).1.length ∧
    dedupGroups (runBatches queries brave google).1 =
      keepFirst [] (flatTagged (runBatches queries brave google).1) ∧
    ((dedupGroups (runBatches queries brave google).1).map fun t => t.1.url).Nodup ∧
    (∀ t ∈ flatTagged (runBatches queries brave google).1,
      ∃ t2 ∈ dedupGroups (runBatches queries brave google).1, t2.1.url = t.1.url) ∧
    (∀ t ∈ dedupGroups (runBatches queries brave google).1,
      (flatTagged (runBatches queries brave google).1).find?
        (fun x => x.1.url == t.1.url) = some t) := by
  have hkf := dedupGo_eq_keepFirst (runBatches queries brave google).1 []
  refine ⟨runBatchesGo_count queries brave google 8 0, hkf, ?_, ?_, ?_⟩
  · rw [dedupGroups, hkf]
    exact keepFirst_urls_nodup _ _
  · intro t ht
    rw [dedupGroups, hkf]
    exact keepFirst_covers _ [] t ht rfl
  · intro t ht
    rw [dedupGroups, hkf] at ht
    exact keepFirst_is_first _ [] t ht

/-- C6 witness: the dedup clauses applied to a concrete run in which the
same url comes back from both providers with different titles. -/
theorem c6_search_dedup_and_count_witness :
    (⟨⟨"t2", "u", "s2", "google"⟩, "q"⟩ : SResult × String) ∈
      flatTagged (runBatches ["q"] (fun _ => [⟨"t1", "u", "s1", "brave"⟩])
        (fun _ => [⟨"t2", "u", "s2", "google"⟩])).1 ∧
    ∃ t2 ∈ dedupGroups (runBatches ["q"] (fun _ => [⟨"t1", "u", "s1", "brave"⟩])
        (fun _ => [⟨"t2", "u", "s2", "google"⟩])).1,
      t2.1.url = "u" :=
  ⟨by decide,
    (c6_search_dedup_and_count ["q"] (fun _ => [⟨"t1", "u", "s1", "brave"⟩])
        (fun _ => [⟨"t2", "u", "s2", "google"⟩])).2.2.2.1
      ⟨⟨"t2", "u", "s2", "google"⟩, "q"⟩ (by decide)⟩


/-! ## String kit lemmas for the widget round-trip -/

theorem pfxB_iff (p : List Char) : ∀ s, pfxB p s = true ↔ ∃ t, s = p ++ t := by
  induction p with
  | nil => intro s; simp [pfxB]
  | cons a as ih =>
    intro s
    cases s with
    | nil => simp [pfxB]
    | cons b bs => simp [pfxB, ih, List.cons_eq_cons, eq_comm (a := b)]

theorem pfxB_self_append (p r : List Char) : pfxB p (p ++ r) = true :=
  (pfxB_iff p (p ++ r)).mpr ⟨r, rfl⟩

theorem subB_iff (p : List Char) : ∀ s, subB p s = true ↔ occursIn p s := by
  intro s
  induction s with
  | nil =>
    simp only [subB, pfxB_iff, occursIn]
    constructor
    · rintro ⟨t, ht⟩
      exact ⟨[], t, by simpa using ht⟩
    · rintro ⟨u, v, h⟩
      have := h.symm
      simp only [List.append_eq_nil] at this
      exact ⟨[], by simp [this.1.2, this.2]⟩
  | cons c cs ih =>
    simp only [subB, Bool.or_eq_true, pfxB_iff, ih, occursIn]
    constructor
    · rintro (⟨t, ht⟩ | ⟨u, v, h⟩)
      · exact ⟨[], t, by simpa using ht⟩
      · exact ⟨c :: u, v, by simp [h]⟩
    · rintro ⟨u, v, h⟩
      cases u with
      | nil => exact Or.inl ⟨v, by simpa using h⟩
      | cons c2 u2 =>
        simp only [List.cons_append, List.cons_eq_cons] at h
        exact Or.inr ⟨u2, v, h.2⟩

theorem subB_false_iff (p s : List Char) : subB p s = false ↔ ¬ occursIn p s := by
  rw [← subB_iff]
  cases h : subB p s <;> simp [h]

theorem occursIn_trans {p a s : List Char} (h1 : occursIn p a) (h2 : occursIn a s) :
    occursIn p s := by
  obtain ⟨u1, v1, h1⟩ := h1
  obtain ⟨u2, v2, h2⟩ := h2
  exact ⟨u2 ++ u1, v1 ++ v2, by simp [h2, h1]⟩

theorem occursIn_take {p s : List Char} {n : Nat} (h : occursIn p (s.take n)) :
    occursIn p s :=
  occursIn_trans h ⟨[], s.drop n, by simp⟩

theorem occursIn_of_cons {p t : List Char} {c : Char} (h : occursIn p t) :
    occursIn p (c :: t) := by
  obtain ⟨u, v, h⟩ := h
  exact ⟨c :: u, v, by simp [h]⟩

theorem occursIn_self_take (s : List Char) (n : Nat) : occursIn (s.take n) s :=
  ⟨[], s.drop n, by simp⟩

theorem occursIn_append_elim (p A B : List Char) (h : occursIn p (A ++ B)) :
    occursIn p A ∨ occursIn p B ∨
      ∃ u v, A ++ B = u ++ p ++ v ∧ u.length < A.length ∧
        A.length < u.length + p.length := by
  obtain ⟨u, v, huv⟩ := h
  by_cases h1 : u.length + p.length ≤ A.length
  · left
    have hA : A = (u ++ p ++ v).take A.length := by
      rw [← huv, List.take_left]
    rw [List.append_assoc, List.take_append_eq_append_take,
      List.take_append_eq_append_take] at hA
    rw [List.take_of_length_le (by omega), List.take_of_length_le (by omega)] at hA
    exact ⟨u, v.take (A.length - u.length - p.length), by rw [hA]; simp⟩
  · by_cases h2 : A.length ≤ u.length
    · right; left
      have hB : B = (u ++ p ++ v).drop A.length := by
        rw [← huv, List.drop_left]
      rw [List.append_assoc, List.drop_append_eq_append_drop] at hB
      have : A.length - u.length = 0 := by omega
      rw [this, List.drop_zero] at hB
      exact ⟨u.drop A.length, v, by rw [hB, List.append_assoc]⟩
    · right; right
      exact ⟨u, v, huv, by omega, by omega⟩

theorem noOcc_append_head {p A t : List Char} {c : Char} (hc : c ∉ p)
    (hA : ¬ occursIn p A) (hB : ¬ occursIn p (c :: t)) :
    ¬ occursIn p (A ++ c :: t) := by
  intro h
  rcases occursIn_append_elim p A (c :: t) h with h | h | ⟨u, v, huv, h1, h2⟩
  · exact hA h
  · exact hB h
  · have hb1 : A.length < (A ++ c :: t).length := by simp
    have e1 : (A ++ c :: t)[A.length] = c := by
      rw [List.getElem_append_right (Nat.le_refl A.length)]
      simp
    have hb2 : A.length - u.length < p.length := by omega
    have e2 : (A ++ c :: t)[A.length] = p[A.length - u.length] := by
      have heq : A ++ c :: t = u ++ (p ++ v) := by rw [huv, List.append_assoc]
      rw [List.getElem_of_eq heq hb1, List.getElem_append_right (by omega),
        List.getElem_append_left (by omega)]
    rw [e1] at e2
    exact hc (e2 ▸ List.getElem_mem hb2)

theorem noOcc_append_last {p A B : List Char} {c : Char} (hc : c ∉ p)
    (hlast : A.getLast? = some c) (hA : ¬ occursIn p A) (hB : ¬ occursIn p B) :
    ¬ occursIn p (A ++ B) := by
  intro h
  rcases occursIn_append_elim p A B h with h | h | ⟨u, v, huv, h1, h2⟩
  · exact hA h
  · exact hB h
  · have hAne : A ≠ [] := by
      intro e
      rw [e] at hlast
      simp at hlast
    have hApos : 1 ≤ A.length := by
      cases A with
      | nil => exact absurd rfl hAne
      | cons x xs => simp
    have hb1 : A.length - 1 < A.length := by omega
    have e1 : A[A.length - 1] = c := by
      have := List.getLast?_eq_getElem? A
      rw [hlast] at this
      have h2 := this.symm
      rw [List.getElem?_eq_getElem hb1] at h2
      exact Option.some.inj h2
    have hb2 : A.length - 1 - u.length < p.length := by omega
    have e2 : A[A.length - 1] = p[A.length - 1 - u.length] := by
      have hb3 : A.length - 1 < (A ++ B).length := by simp; omega
      have g1 : (A ++ B)[A.length - 1] = A[A.length - 1] :=
        List.getElem_append_left hb1
      have heq : A ++ B = u ++ (p ++ v) := by rw [huv, List.append_assoc]
      rw [← g1, List.getElem_of_eq heq hb3, List.getElem_append_right (by omega),
        List.getElem_append_left (by omega)]
    rw [e1] at e2
    exact hc (e2 ▸ List.getElem_mem hb2)

theorem dollarSubst_id (m a b : List Char) :
    ∀ w, w.all (fun c => !(c == '$')) = true → dollarSubst w m a b = w := by
  intro w
  induction w with
  | nil => intro _; rfl
  | cons c rest ih =>
    intro h
    rw [List.all_cons, Bool.and_eq_true] at h
    have hc : ¬ c = '$' := by
      intro e
      subst e
      simp at h
    unfold dollarSubst
    rw [if_neg hc, ih h.2]


/-! ## Placeholder structure lemmas -/

theorem digitChar_range (d : Nat) :
    48 ≤ (digitChar d).toNat ∧ (digitChar d).toNat ≤ 57 := by
  match d with
  | 0 => decide
  | 1 => decide
  | 2 => decide
  | 3 => decide
  | 4 => decide
  | 5 => decide
  | 6 => decide
  | 7 => decide
  | 8 => decide
  | 9 => decide
  | n + 10 =>
    show 48 ≤ ('0').toNat ∧ ('0').toNat ≤ 57
    decide

theorem natDigitsGo_spec :
    ∀ (fuel n : Nat), n < fuel →
      natDigitsGo fuel n ≠ [] ∧ ∀ c ∈ natDigitsGo fuel n, 48 ≤ c.toNat ∧ c.toNat ≤ 57 := by
  intro fuel
  induction fuel with
  | zero => intro n h; omega
  | succ fuel ih =>
    intro n h
    by_cases h10 : n < 10
    · simp only [natDigitsGo, if_pos h10]
      refine ⟨by simp, ?_⟩
      intro c hc
      simp only [List.mem_singleton] at hc
      rw [hc]
      exact digitChar_range n
    · simp only [natDigitsGo, if_neg h10]
      have hdiv : n / 10 < fuel := by
        have h1 : n / 10 < n := Nat.div_lt_self (by omega) (by omega)
        omega
      obtain ⟨hne, hall⟩ := ih (n / 10) hdiv
      refine ⟨by simp [hne], ?_⟩
      intro c hc
      rcases List.mem_append.mp hc with hc | hc
      · exact hall c hc
      · simp only [List.mem_singleton] at hc
        rw [hc]
        exact digitChar_range (n % 10)

theorem natDigits_head (k : Nat) :
    ∃ c0 cs, natDigits k = c0 :: cs ∧ 48 ≤ c0.toNat ∧ c0.toNat ≤ 57 := by
  obtain ⟨hne, hall⟩ := natDigitsGo_spec (k + 1) k (by omega)
  rcases h : natDigits k with _ | ⟨c0, cs⟩
  · exact absurd h hne
  · refine ⟨c0, cs, rfl, ?_⟩
    have := hall c0 (by rw [← natDigits, h]; simp)
    exact this

theorem phL_cons (k : Nat) :
    phL k = '_' :: '_' :: '_' :: 'W' :: 'I' :: 'D' :: 'G' :: 'E' :: 'T' :: '_' :: (natDigits k ++ ['_','_','_']) :=
  rfl

theorem phL_length (k : Nat) : (phL k).length = 13 + (natDigits k).length := by
  simp [phL, marker]
  omega

theorem phL_length_ge (k : Nat) : 14 ≤ (phL k).length := by
  obtain ⟨c0, cs, hds, -, -⟩ := natDigits_head k
  rw [phL_length, hds]
  simp
  omega

theorem marker_take_phL (k : Nat) : (phL k).take 10 = marker := by
  rw [phL, List.append_assoc]
  exact List.take_left' rfl

theorem phL_self_overlap (k : Nat) :
    ∀ d, 1 ≤ d → d ≤ 9 → (phL k).drop d = (phL k).take ((phL k).length - d) → False := by
  obtain ⟨c0, cs, hds, hc0l, hc0u⟩ := natDigits_head k
  have hph : phL k = '_' :: '_' :: '_' :: 'W' :: 'I' :: 'D' :: 'G' :: 'E' :: 'T' :: '_' :: (c0 :: (cs ++ ['_','_','_'])) := by
    rw [phL_cons, hds]
    simp
  have hlen : 14 ≤ (phL k).length := phL_length_ge k
  intro d h1 h9 hover
  have hidx : ∀ i, i < (phL k).length - d → (phL k)[d + i]? = (phL k)[i]? := by
    intro i hi
    have h := congrArg (fun l => l[i]?) hover
    simp only at h
    rw [List.getElem?_drop, List.getElem?_take_of_lt hi] at h
    exact h
  interval_cases d
  · exact absurd (hidx 2 (by omega)) (by rw [hph]; simp)
  · exact absurd (hidx 1 (by omega)) (by rw [hph]; simp)
  · exact absurd (hidx 0 (by omega)) (by rw [hph]; simp)
  · exact absurd (hidx 0 (by omega)) (by rw [hph]; simp)
  · exact absurd (hidx 0 (by omega)) (by rw [hph]; simp)
  · exact absurd (hidx 0 (by omega)) (by rw [hph]; simp)
  · exact absurd (hidx 0 (by omega)) (by rw [hph]; simp)
  · exact absurd (hidx 0 (by omega)) (by rw [hph]; simp)
  · have h10 := hidx 1 (by omega)
    rw [hph] at h10
    simp at h10
    exact absurd hc0u (by rw [h10]; decide)

theorem phL_not_pfx (k : Nat) (A R : List Char) (hocc : ¬ occursIn marker A)
    (hne : A ≠ []) : pfxB (phL k) (A ++ phL k ++ R) = false := by
  by_contra hcon
  have h' : pfxB (phL k) (A ++ phL k ++ R) = true := by
    revert hcon
    cases pfxB (phL k) (A ++ phL k ++ R) <;> simp
  obtain ⟨t, heq⟩ := (pfxB_iff _ _).mp h'
  rw [List.append_assoc] at heq
  have hdpos : 1 ≤ A.length := by
    cases A with
    | nil => exact absurd rfl hne
    | cons x xs => simp
  by_cases hbig : (phL k).length ≤ A.length
  · have htake : A.take (phL k).length = phL k := by
      have h1 := congrArg (fun l => l.take (phL k).length) heq
      simp only at h1
      rw [List.take_append_eq_append_take] at h1
      rw [show (phL k).length - A.length = 0 from by omega, List.take_zero,
        List.append_nil] at h1
      rw [h1, List.take_left]
    have hmk : marker = A.take 10 := by
      rw [← marker_take_phL k, ← htake, List.take_take]
      congr 1
      have := phL_length_ge k
      omega
    exact hocc (hmk ▸ occursIn_self_take A 10)
  · push_neg at hbig
    have hA_eq : A = (phL k).take A.length := by
      have h1 := congrArg (fun l => l.take A.length) heq
      simp only at h1
      rw [List.take_append_eq_append_take, Nat.sub_self, List.take_zero,
        List.append_nil, List.take_length] at h1
      rw [List.take_append_eq_append_take,
        show A.length - (phL k).length = 0 from by omega, List.take_zero,
        List.append_nil] at h1
      exact h1
    by_cases h10 : 10 ≤ A.length
    · have hmk : marker = A.take 10 := by
        rw [hA_eq, List.take_take, ← marker_take_phL k]
        congr 1
        omega
      exact hocc (hmk ▸ occursIn_self_take A 10)
    · have hover : (phL k).drop A.length = (phL k).take ((phL k).length - A.length) := by
        have h1 := congrArg (fun l => l.drop A.length) heq
        simp only at h1
        rw [List.drop_append_eq_append_drop, Nat.sub_self, List.drop_zero,
          List.drop_length, List.nil_append] at h1
        rw [List.drop_append_eq_append_drop,
          show A.length - (phL k).length = 0 from by omega, List.drop_zero] at h1
        have hlen_drop : ((phL k).drop A.length).length = (phL k).length - A.length :=
          List.length_drop _ _
        have h2 := congrArg (fun l => l.take ((phL k).length - A.length)) h1
        simp only at h2
        rw [List.take_append_eq_append_take,
          show (phL k).length - A.length - (phL k).length = 0 from by omega,
          List.take_zero, List.append_nil] at h2
        rw [List.take_append_eq_append_take, hlen_drop, Nat.sub_self,
          List.take_zero, List.append_nil,
          List.take_of_length_le (le_of_eq hlen_drop)] at h2
        exact h2.symm
      exact phL_self_overlap k A.length hdpos (by omega) hover

theorem splitFirst_pos (s p : List Char) (h : pfxB p s = true) :
    splitFirst s p = some ([], s.drop p.length) := by
  cases s with
  | nil =>
    simp only [splitFirst, if_pos h, List.drop_nil]
  | cons c t =>
    simp only [splitFirst, if_pos h]

theorem splitFirst_intended (k : Nat) :
    ∀ (A R : List Char), ¬ occursIn marker A →
      splitFirst (A ++ phL k ++ R) (phL k) = some (A, R) := by
  intro A
  induction A with
  | nil =>
    intro R h
    simp only [List.nil_append]
    rw [splitFirst_pos _ _ (pfxB_self_append _ _), List.drop_left]
  | cons c A ih =>
    intro R hocc
    have hnotpfx : pfxB (phL k) ((c :: A) ++ phL k ++ R) = false :=
      phL_not_pfx k (c :: A) R hocc (by simp)
    have hl : (c :: A) ++ phL k ++ R = c :: (A ++ phL k ++ R) := by simp
    rw [hl] at hnotpfx
    have hstep : splitFirst (c :: (A ++ phL k ++ R)) (phL k) =
        (splitFirst (A ++ phL k ++ R) (phL k)).map fun pr => (c :: pr.1, pr.2) := by
      simp only [splitFirst, hnotpfx]
      simp
    rw [hl, hstep, ih R (fun hoc => hocc (occursIn_of_cons hoc))]
    rfl

theorem jsReplaceFirst_intended (k : Nat) (A R w : List Char)
    (hA : ¬ occursIn marker A) (hw : w.all (fun c => !(c == '$')) = true) :
    jsReplaceFirst (A ++ phL k ++ R) (phL k) w = A ++ w ++ R := by
  rw [jsReplaceFirst, splitFirst_intended k A R hA]
  simp only
  rw [dollarSubst_id _ _ _ w hw]


/-! ## Restore over an interleaving -/

theorem fragOK_spec (f : List Char) (h : fragOK f = true) :
    ¬ occursIn marker f ∧ f.all (fun c => !(c == '$')) = true ∧
      (∃ f2, f = '<' :: f2) ∧ f.getLast? = some '>' := by
  simp only [fragOK, Bool.and_eq_true, beq_iff_eq] at h
  obtain ⟨⟨⟨h1, h2⟩, h3⟩, h4⟩ := h
  refine ⟨(subB_false_iff _ _).mp h1, h2, ?_, ?_⟩
  · split at h3
    · next c f2 => exact ⟨f2, rfl⟩
    · simp at h3
  · rcases hl : f.getLast? with _ | c
    · rw [hl] at h4
      simp at h4
    · rw [hl] at h4
      rw [show c = '>' from by simpa using h4]

theorem restoreAux_interleave :
    ∀ (fs gs : List (List Char)) (k : Nat) (Q : List Char),
      gs.length = fs.length →
      ¬ occursIn marker Q →
      (∀ g ∈ gs, ¬ occursIn marker g) →
      (∀ f ∈ fs, fragOK f = true) →
      restoreAux k (Q ++ tailPh k gs) fs = Q ++ tailFr fs gs := by
  intro fs
  induction fs with
  | nil =>
    intro gs k Q hlen _ _ _
    have hg : gs = [] := List.length_eq_zero.mp (by simpa using hlen)
    subst hg
    simp [restoreAux, tailPh, tailFr]
  | cons f fs ih =>
    intro gs k Q hlen hQ hgs hfs
    cases gs with
    | nil => simp at hlen
    | cons g gs2 =>
      obtain ⟨hfm, hfd, ⟨f2, hf2⟩, hflast⟩ := fragOK_spec f (hfs f (by simp))
      have hfne : f ≠ [] := by rw [hf2]; simp
      have hstep : jsReplaceFirst (Q ++ tailPh k (g :: gs2)) (phL k) f =
          Q ++ f ++ (g ++ tailPh (k + 1) gs2) := by
        have hshape : Q ++ tailPh k (g :: gs2) = Q ++ phL k ++ (g ++ tailPh (k + 1) gs2) := by
          simp [tailPh, List.append_assoc]
        rw [hshape, jsReplaceFirst_intended k Q _ f hQ hfd]
      have hQf : ¬ occursIn marker (Q ++ f) := by
        rw [hf2]
        exact noOcc_append_head (by decide) hQ (hf2 ▸ hfm)
      have hlast2 : (Q ++ f).getLast? = some '>' := by
        rw [List.getLast?_append_of_ne_nil Q hfne]
        exact hflast
      have hQ' : ¬ occursIn marker (Q ++ f ++ g) :=
        noOcc_append_last (by decide) hlast2 hQf (hgs g (by simp))
      have hlen2 : gs2.length = fs.length := by simpa using hlen
      calc restoreAux k (Q ++ tailPh k (g :: gs2)) (f :: fs)
          = restoreAux (k + 1) (Q ++ f ++ (g ++ tailPh (k + 1) gs2)) fs := by
            simp only [restoreAux]
            rw [hstep]
        _ = restoreAux (k + 1) ((Q ++ f ++ g) ++ tailPh (k + 1) gs2) fs := by
            rw [List.append_assoc (Q ++ f) g (tailPh (k + 1) gs2)]
        _ = (Q ++ f ++ g) ++ tailFr fs gs2 :=
            ih gs2 (k + 1) (Q ++ f ++ g) hlen2 hQ'
              (fun g2 hg2 => hgs g2 (by simp [hg2]))
              (fun f3 hf3 => hfs f3 (by simp [hf3]))
        _ = Q ++ tailFr (f :: fs) (g :: gs2) := by
            simp [tailFr, List.append_assoc]

/-! ## C3: restore substitutes at the first occurrence -/

/-- C3 counterexample: `restoreWidgets` uses JS `String.replace`, whose
string replacement is `$`-processed — `$&` re-inserts the matched
placeholder — so a stored fragment containing `$&` is *not* substituted
in its original form, refuting "substitutes the stored fragment
verbatim". -/
theorem c3_restore_cex :
    restoreWidgets "___WIDGET_0___" ["<script>a$&b</script>"] ≠
      "<script>a$&b</script>" := by
  decide

/-- C3 (amended): when the rewritten text contains the placeholders
`___WIDGET_0___ … ___WIDGET_(N-1)___` in index order, the surrounding
runs contain no `___WIDGET_` and each stored fragment starts with `<`,
ends with `>`, and contains no `$` (every fragment the protector
captures has this shape; the `$` restriction is what the counterexample
forces), restore replaces, in increasing index order, the first
occurrence of each placeholder with its stored fragment verbatim —
however the surrounding runs were reordered, duplicated or extended. -/
theorem c3_restore_first_occurrence (ws gs : List (List Char)) (Q : List Char)
    (hlen : gs.length = ws.length)
    (hQ : subB marker Q = false)
    (hgs : ∀ g ∈ gs, subB marker g = false)
    (hws : ∀ w ∈ ws, fragOK w = true) :
    restoreWidgets (String.mk (Q ++ tailPh 0 gs)) (ws.map String.mk) =
      String.mk (Q ++ tailFr ws gs) := by
  rw [restoreWidgets]
  congr 1
  have hmaps : (ws.map String.mk).map String.toList = ws := by
    rw [List.map_map]
    have hid : String.toList ∘ String.mk = id := funext fun l => rfl
    rw [hid, List.map_id]
  rw [show (String.mk (Q ++ tailPh 0 gs)).toList = Q ++ tailPh 0 gs from rfl, hmaps]
  exact restoreAux_interleave ws gs 0 Q hlen ((subB_false_iff _ _).mp hQ)
    (fun g hg => (subB_false_iff _ _).mp (hgs g hg)) hws

/-- C3 witness: one placeholder between two text runs, restored to the
stored iframe fragment in place. -/
theorem c3_restore_first_occurrence_witness :
    restoreWidgets (String.mk ("A?".toList ++ tailPh 0 ["B!".toList]))
        (["<iframe></iframe>".toList].map String.mk) =
      String.mk ("A?".toList ++ tailFr ["<iframe></iframe>".toList] ["B!".toList]) :=
  c3_restore_first_occurrence ["<iframe></iframe>".toList] ["B!".toList] "A?".toList
    (by decide) (by decide) (by decide) (by decide)


/-! ## Matcher structure lemmas: every match ends in a closing angle -/

theorem lowerC_gt (c : Char) (h : lowerC c = '>') : c = '>' := by
  unfold lowerC at h
  split at h <;> first | exact h | exact absurd h (by decide)

theorem spanLen_le (p : Char → Bool) : ∀ l, spanLen p l ≤ l.length := by
  intro l
  induction l with
  | nil => simp [spanLen]
  | cons c t ih =>
    simp only [spanLen]
    split
    · simpa using ih
    · simp

theorem spanLen_boundary (p : Char → Bool) :
    ∀ l, spanLen p l < l.length →
      ∃ c, l[spanLen p l]? = some c ∧ p c = false := by
  intro l
  induction l with
  | nil => simp [spanLen]
  | cons c t ih =>
    intro hlt
    simp only [spanLen] at hlt ⊢
    by_cases hp : p c
    · rw [if_pos hp] at hlt ⊢
      have := ih (by simpa using hlt)
      simpa using this
    · rw [if_neg hp] at hlt ⊢
      exact ⟨c, by simp, by simpa using hp⟩

theorem ciPfx_getElem (xs : List Char) :
    ∀ l, ciPfx (xs ++ ['>']) l = true → l[xs.length]? = some '>' := by
  induction xs with
  | nil =>
    intro l h
    cases l with
    | nil => simp [ciPfx] at h
    | cons c t =>
      simp only [List.nil_append, ciPfx, Bool.and_eq_true, beq_iff_eq] at h
      have := lowerC_gt c h.1.symm
      simp [this]
  | cons x xs ih =>
    intro l h
    cases l with
    | nil => simp [ciPfx] at h
    | cons c t =>
      simp only [List.cons_append, ciPfx, Bool.and_eq_true] at h
      have := ih t h.2
      simpa using this

theorem findCloseTagS_spec (name : List Char) :
    ∀ l j, findCloseTagS name l = some j →
      ciPfx ('<' :: '/' :: name ++ ['>']) (l.drop j) = true := by
  intro l
  induction l with
  | nil => intro j h; simp [findCloseTagS] at h
  | cons c rest ih =>
    intro j h
    simp only [findCloseTagS] at h
    split at h
    · next hci =>
      have : j = 0 := by simpa using h.symm
      subst this
      simpa using hci
    · next hci =>
      rcases Option.map_eq_some'.mp h with ⟨j2, hj2, rfl⟩
      have := ih j2 hj2
      simpa using this

theorem findClose1_spec :
    ∀ l o L, findClose1 l = some (o, L) →
      ∃ name, name ∈ tagNames ∧
        ciPfx ('<' :: '/' :: name ++ ['>']) (l.drop o) = true ∧ L = name.length + 3 := by
  intro l
  induction l with
  | nil => intro o L h; simp [findClose1] at h
  | cons c rest ih =>
    intro o L h
    simp only [findClose1] at h
    split at h
    · next name hfind =>
      have hpred := List.find?_some hfind
      have hmem := List.mem_of_find?_eq_some hfind
      have ho : o = 0 ∧ L = name.length + 3 := by
        constructor <;> [skip; skip] <;> cases h <;> rfl
      obtain ⟨rfl, rfl⟩ := ho
      exact ⟨name, hmem, by simpa using hpred, rfl⟩
    · rcases Option.map_eq_some'.mp h with ⟨⟨o2, L2⟩, hj2, heq⟩
      obtain ⟨name, hmem, hci, hL⟩ := ih o2 L2 hj2
      cases heq
      exact ⟨name, hmem, by simpa using hci, hL⟩

theorem firstSome_spec (f : α → Option β) :
    ∀ l b, firstSome f l = some b → ∃ a ∈ l, f a = some b := by
  intro l
  induction l with
  | nil => intro b h; simp [firstSome] at h
  | cons a as ih =>
    intro b h
    simp only [firstSome] at h
    split at h
    · next v hv =>
      cases h
      exact ⟨a, by simp, hv⟩
    · obtain ⟨a2, ha2, hfa2⟩ := ih b h
      exact ⟨a2, by simp [ha2], hfa2⟩

theorem div2Tail_last (t3 : List Char) (m : Nat) (h : div2Tail t3 = some m) :
    1 ≤ m ∧ t3[m - 1]? = some '>' := by
  simp only [div2Tail] at h
  split at h
  · split at h
    · split at h
      · next j hfind =>
        cases h
        have hci := findCloseTagS_spec divName _ j hfind
        have hc := ciPfx_getElem ('<' :: '/' :: divName) _ hci
        rw [List.getElem?_drop, List.getElem?_drop, List.getElem?_drop] at hc
        refine ⟨by omega, ?_⟩
        have harith :
            spanLen (fun c => !(c == '"')) t3 + 1 +
                (spanLen (fun c => !(c == '>')) (t3.drop (spanLen (fun c => !(c == '"')) t3 + 1)) + 1 +
                  (j + ('<' :: '/' :: divName).length)) =
              spanLen (fun c => !(c == '"')) t3 + 1 +
                spanLen (fun c => !(c == '>')) (t3.drop (spanLen (fun c => !(c == '"')) t3 + 1)) + 1 +
                j + 6 - 1 := by
          simp [divName]
          omega
        rw [harith] at hc
        exact hc
      · exact absurd h (by simp)
    · exact absurd h (by simp)
  · exact absurd h (by simp)


theorem tryKwAt_last (t2 : List Char) (y r : Nat) (h : tryKwAt t2 y = some r) :
    1 ≤ r ∧ t2[r - 1]? = some '>' := by
  obtain ⟨kw, hmem, hkw⟩ := firstSome_spec _ kwNames r h
  split at hkw
  · rcases Option.map_eq_some'.mp hkw with ⟨m, hm, rfl⟩
    obtain ⟨hm1, hmlast⟩ := div2Tail_last _ m hm
    refine ⟨by omega, ?_⟩
    rw [List.getElem?_drop] at hmlast
    have harith : y + kw.length + (m - 1) = y + kw.length + m - 1 := by omega
    rw [harith] at hmlast
    exact hmlast
  · exact absurd hkw (by simp)

theorem tryYdesc_last (t2 : List Char) :
    ∀ y r, tryYdesc t2 y = some r → 1 ≤ r ∧ t2[r - 1]? = some '>' := by
  intro y
  induction y with
  | zero =>
    intro r h
    simp only [tryYdesc] at h
    exact tryKwAt_last t2 0 r h
  | succ y ih =>
    intro r h
    simp only [tryYdesc] at h
    split at h
    · next v hv =>
      cases h
      exact tryKwAt_last t2 (y + 1) r hv
    · exact ih r h

theorem tryXdesc_last (t1 : List Char) :
    ∀ x r, tryXdesc t1 x = some r → 1 ≤ r ∧ t1[r - 1]? = some '>' := by
  intro x
  induction x with
  | zero =>
    intro r h
    simp only [tryXdesc] at h
    split at h
    · rcases Option.map_eq_some'.mp h with ⟨ry, hry, rfl⟩
      obtain ⟨hry1, hrylast⟩ := tryYdesc_last _ _ ry hry
      refine ⟨by omega, ?_⟩
      rw [List.getElem?_drop] at hrylast
      have harith : 7 + (ry - 1) = 7 + ry - 1 := by omega
      rw [harith] at hrylast
      exact hrylast
    · exact absurd h (by simp)
  | succ x ih =>
    intro r h
    simp only [tryXdesc] at h
    rcases hfirst : (if ciPfx classEq (t1.drop (x + 1)) = true then
        (tryYdesc (t1.drop (x + 1 + 7))
          (spanLen (fun c => !(c == '"')) (t1.drop (x + 1 + 7)))).map (x + 1 + 7 + ·)
      else none) with _ | v
    · rw [hfirst] at h
      simp only [Option.orElse] at h
      exact ih r h
    · rw [hfirst] at h
      simp only [Option.orElse] at h
      cases h
      split at hfirst
      · rcases Option.map_eq_some'.mp hfirst with ⟨ry, hry, rfl⟩
        obtain ⟨hry1, hrylast⟩ := tryYdesc_last _ _ ry hry
        refine ⟨by omega, ?_⟩
        rw [List.getElem?_drop] at hrylast
        have harith : x + 1 + 7 + (ry - 1) = x + 1 + 7 + ry - 1 := by omega
        rw [harith] at hrylast
        exact hrylast
      · exact absurd hfirst (by simp)

theorem branch2_last (t : List Char) (m : Nat) (h : branch2 t = some m) :
    1 ≤ m ∧ t[m - 1]? = some '>' := by
  simp only [branch2] at h
  split at h
  · rcases Option.map_eq_some'.mp h with ⟨r, hr, rfl⟩
    obtain ⟨hr1, hrlast⟩ := tryXdesc_last _ _ r hr
    refine ⟨by omega, ?_⟩
    rw [List.getElem?_drop] at hrlast
    have harith : 3 + (r - 1) = 3 + r - 1 := by omega
    rw [harith] at hrlast
    exact hrlast
  · exact absurd h (by simp)

theorem branch1_last (t : List Char) (m : Nat) (h : branch1 t = some m) :
    1 ≤ m ∧ t[m - 1]? = some '>' := by
  simp only [branch1] at h
  split at h
  · exact absurd h (by simp)
  · next name hfind =>
    split at h
    · next hklt =>
      split at h
      · next pr hclose =>
        cases h
        obtain ⟨name2, hmem2, hci2, hL2⟩ :=
          findClose1_spec _ pr.1 pr.2 (by rw [← hclose])
        have hc := ciPfx_getElem ('<' :: '/' :: name2) _ hci2
        rw [List.getElem?_drop, List.getElem?_drop, List.getElem?_drop] at hc
        refine ⟨by omega, ?_⟩
        have harith :
            name.length + (spanLen (fun c => !(c == '>')) (t.drop name.length) + 1 +
                (pr.1 + ('<' :: '/' :: name2).length)) =
              name.length + spanLen (fun c => !(c == '>')) (t.drop name.length) + 1 +
                pr.1 + pr.2 - 1 := by
          simp only [List.length_cons, hL2]
          omega
        rw [harith] at hc
        exact hc
      · next hclose =>
        cases h
        obtain ⟨c, hc, hpc⟩ := spanLen_boundary _ _ hklt
        have hcgt : c = '>' := by
          have : (c == '>') = true := by
            revert hpc
            cases c == '>' <;> simp
          simpa using this
        subst hcgt
        rw [List.getElem?_drop] at hc
        refine ⟨by omega, ?_⟩
        have harith :
            name.length + spanLen (fun c => !(c == '>')) (t.drop name.length) =
              name.length + spanLen (fun c => !(c == '>')) (t.drop name.length) + 1 - 1 := by
          omega
        rw [harith] at hc
        exact hc
    · exact absurd h (by simp)

theorem branchSimple_last (name : List Char) (t : List Char) (m : Nat)
    (h : branchSimple name t = some m) : 1 ≤ m ∧ t[m - 1]? = some '>' := by
  simp only [branchSimple] at h
  split at h
  · split at h
    · next hklt =>
      split at h
      · next j hfind =>
        cases h
        have hci := findCloseTagS_spec name _ j hfind
        have hc := ciPfx_getElem ('<' :: '/' :: name) _ hci
        rw [List.getElem?_drop, List.getElem?_drop, List.getElem?_drop] at hc
        refine ⟨by omega, ?_⟩
        have harith :
            name.length + (spanLen (fun c => !(c == '>')) (t.drop name.length) + 1 +
                (j + ('<' :: '/' :: name).length)) =
              name.length + spanLen (fun c => !(c == '>')) (t.drop name.length) + 1 + j +
                (name.length + 3) - 1 := by
          simp only [List.length_cons]
          omega
        rw [harith] at hc
        exact hc
      · exact absurd h (by simp)
    · exact absurd h (by simp)
  · exact absurd h (by simp)

theorem matchHere_last (s : List Char) (n : Nat) (h : matchHere s = some n) :
    1 ≤ n ∧ s[n - 1]? = some '>' ∧ ∃ t, s = '<' :: t := by
  rw [matchHere.eq_def] at h
  split at h
  · next t =>
    have hshape : ∃ m, (branch1 t = some m ∨ branch2 t = some m ∨
        branchSimple figureName t = some m ∨ branchSimple videoName t = some m) ∧
        n = m + 1 := by
      split at h
      · next m hb => exact ⟨m, Or.inl hb, by cases h; rfl⟩
      · split at h
        · next m hb => exact ⟨m, Or.inr (Or.inl hb), by cases h; rfl⟩
        · split at h
          · next m hb => exact ⟨m, Or.inr (Or.inr (Or.inl hb)), by cases h; rfl⟩
          · split at h
            · next m hb => exact ⟨m, Or.inr (Or.inr (Or.inr hb)), by cases h; rfl⟩
            · exact absurd h (by simp)
    obtain ⟨m, hb, rfl⟩ := hshape
    have hlast : 1 ≤ m ∧ t[m - 1]? = some '>' := by
      rcases hb with hb | hb | hb | hb
      · exact branch1_last t m hb
      · exact branch2_last t m hb
      · exact branchSimple_last _ t m hb
      · exact branchSimple_last _ t m hb
    refine ⟨by omega, ?_, ⟨t, rfl⟩⟩
    have hm : m + 1 - 1 = (m - 1) + 1 := by omega
    rw [hm]
    simpa using hlast.2
  · exact absurd h (by simp)


/-! ## Protect characterization and the C1 round trip -/

theorem occursIn_drop {p l : List Char} {n : Nat} (h : occursIn p (l.drop n)) :
    occursIn p l := by
  obtain ⟨u, v, h⟩ := h
  refine ⟨l.take n ++ u, v, ?_⟩
  conv_lhs => rw [← List.take_append_drop n l, h]
  simp [List.append_assoc]

theorem getLast?_take (l : List Char) (n : Nat) (h1 : 1 ≤ n) (h2 : n ≤ l.length) :
    (l.take n).getLast? = l[n - 1]? := by
  rw [List.getLast?_eq_getElem?, List.length_take, min_eq_left h2,
    List.getElem?_take_of_lt (by omega)]

theorem fragOK_intro (f : List Char) (hm : subB marker f = false)
    (hd : f.all (fun c => !(c == '$')) = true) (hh : ∃ f2, f = '<' :: f2)
    (hl : f.getLast? = some '>') : fragOK f = true := by
  obtain ⟨f2, rfl⟩ := hh
  simp only [fragOK, hm, hd, hl]
  simp

theorem protectAux_decomp :
    ∀ (fuel : Nat) (s : List Char) (cnt : Nat), s.length ≤ fuel →
      ∃ g0 gs,
        (protectAux fuel cnt s).1 = g0 ++ tailPh cnt gs ∧
        s = g0 ++ tailFr (protectAux fuel cnt s).2 gs ∧
        gs.length = (protectAux fuel cnt s).2.length ∧
        (∃ t0, s = g0 ++ t0) ∧
        (∀ g ∈ gs, occursIn g s) ∧
        (∀ f ∈ (protectAux fuel cnt s).2,
          occursIn f s ∧ (∃ f2, f = '<' :: f2) ∧ f.getLast? = some '>') := by
  intro fuel
  induction fuel with
  | zero =>
    intro s cnt hle
    have hs : s = [] := by
      cases s with
      | nil => rfl
      | cons c t => simp at hle
    subst hs
    exact ⟨[], [], rfl, rfl, rfl, ⟨[], rfl⟩, by simp, by simp [protectAux]⟩
  | succ fuel ih =>
    intro s cnt hle
    cases s with
    | nil =>
      exact ⟨[], [], rfl, rfl, rfl, ⟨[], rfl⟩, by simp, by simp [protectAux]⟩
    | cons c rest =>
      rcases hm : matchHere (c :: rest) with _ | len
      · obtain ⟨g0, gs, h1, h2, h3, ⟨t0, ht0⟩, hgs, hfs⟩ :=
          ih rest cnt (by simpa using Nat.le_of_succ_le_succ hle)
        have hred : protectAux (fuel + 1) cnt (c :: rest) =
            (c :: (protectAux fuel cnt rest).1, (protectAux fuel cnt rest).2) := by
          simp only [protectAux, hm]
        refine ⟨c :: g0, gs, ?_, ?_, ?_, ⟨t0, by rw [List.cons_append, ← ht0]⟩, ?_, ?_⟩
        · rw [hred]
          simp [h1]
        · rw [hred]
          simp only
          rw [List.cons_append, ← h2]
        · rw [hred]
          exact h3
        · intro g hg
          exact occursIn_of_cons (hgs g hg)
        · intro f hf
          rw [hred] at hf
          obtain ⟨hocc, hshape, hlast⟩ := hfs f hf
          exact ⟨occursIn_of_cons hocc, hshape, hlast⟩
      · obtain ⟨hlen1, hlast, ⟨t2, ht2⟩⟩ := matchHere_last (c :: rest) len hm
        have hlenle : len ≤ (c :: rest).length := by
          obtain ⟨hb, -⟩ := List.getElem?_eq_some.mp hlast
          omega
        have hdrople : ((c :: rest).drop len).length ≤ fuel := by
          rw [List.length_drop]
          simp only [List.length_cons] at hle ⊢
          omega
        obtain ⟨g0, gs, h1, h2, h3, ⟨t0, ht0⟩, hgs, hfs⟩ :=
          ih ((c :: rest).drop len) (cnt + 1) hdrople
        have hred : protectAux (fuel + 1) cnt (c :: rest) =
            (phL cnt ++ (protectAux fuel (cnt + 1) ((c :: rest).drop len)).1,
              (c :: rest).take len ::
                (protectAux fuel (cnt + 1) ((c :: rest).drop len)).2) := by
          simp only [protectAux, hm]
        have hsplit : (c :: rest) = (c :: rest).take len ++ (c :: rest).drop len :=
          (List.take_append_drop len (c :: rest)).symm
        refine ⟨[], g0 :: gs, ?_, ?_, ?_, ⟨c :: rest, rfl⟩, ?_, ?_⟩
        · rw [hred]
          simp only [tailPh, List.nil_append]
          rw [h1, List.append_assoc]
        · rw [hred]
          simp only [tailFr, List.nil_append]
          conv_lhs => rw [hsplit, h2]
          rw [List.append_assoc]
        · rw [hred]
          simp [← h3]
        · intro g hg
          rcases List.mem_cons.mp hg with rfl | hg2
          · exact ⟨(c :: rest).take len, t0, by
              conv_lhs => rw [hsplit]
              rw [ht0, List.append_assoc]⟩
          · exact occursIn_drop (hgs g hg2)
        · intro f hf
          rw [hred] at hf
          rcases List.mem_cons.mp hf with rfl | hf2
          · refine ⟨occursIn_self_take _ _, ?_, ?_⟩
            · have hc : c = '<' := by
                have := ht2
                simp only [List.cons_eq_cons] at this
                exact this.1
              subst hc
              exact ⟨rest.take (len - 1), by
                rw [show len = (len - 1) + 1 from by omega]
                simp⟩
            · rw [getLast?_take _ len hlen1 hlenle]
              exact hlast
          · obtain ⟨hocc, hshape, hlast2⟩ := hfs f hf2
            exact ⟨occursIn_drop hocc, hshape, hlast2⟩

/-- C1 counterexample: for an input that already contains the literal
text `___WIDGET_0___` ahead of an iframe, restore substitutes the
fragment at the pre-existing occurrence of the placeholder text, so the
round trip does not return the original — the claim's "for every HTML
string" fails. -/
theorem c1_roundtrip_cex :
    restoreWidgets (protectWidgets "___WIDGET_0___<iframe></iframe>").html
        (protectWidgets "___WIDGET_0___<iframe></iframe>").widgets ≠
      "___WIDGET_0___<iframe></iframe>" := by
  decide

/-- C1 (amended): for every HTML string that does not already contain
the run `___WIDGET_` and whose protected fragments contain no `$`,
applying protect and then restore on the sanitized output with the
captured widget list yields exactly the original HTML, for any number
of fragile fragments of all four matcher shapes. -/
theorem c1_widget_roundtrip (html : String)
    (h1 : subB marker html.toList = false)
    (h2 : ∀ w ∈ (protectWidgets html).widgets,
      w.toList.all (fun c => !(c == '$')) = true) :
    restoreWidgets (protectWidgets html).html (protectWidgets html).widgets = html := by
  obtain ⟨g0, gs, hT, hs, hlen, ⟨t0, ht0⟩, hgs, hfs⟩ :=
    protectAux_decomp html.toList.length html.toList 0 (le_refl _)
  have hnomk : ¬ occursIn marker html.toList := (subB_false_iff _ _).mp h1
  have hQ : ¬ occursIn marker g0 := fun hoc =>
    hnomk (occursIn_trans hoc ⟨[], t0, by simp only [List.nil_append]; exact ht0⟩)
  have hgsm : ∀ g ∈ gs, ¬ occursIn marker g := fun g hg hoc =>
    hnomk (occursIn_trans hoc (hgs g hg))
  have hfsOK : ∀ f ∈ (protectAux html.toList.length 0 html.toList).2, fragOK f = true := by
    intro f hf
    obtain ⟨hocc, ⟨f2, hf2⟩, hlast⟩ := hfs f hf
    have hnm : subB marker f = false :=
      (subB_false_iff _ _).mpr fun hoc => hnomk (occursIn_trans hoc hocc)
    have hnd : f.all (fun c => !(c == '$')) = true := by
      have := h2 (String.mk f) (List.mem_map.mpr ⟨f, hf, rfl⟩)
      simpa using this
    exact fragOK_intro f hnm hnd ⟨f2, hf2⟩ hlast
  show restoreWidgets
      (String.mk (protectAux html.toList.length 0 html.toList).1)
      ((protectAux html.toList.length 0 html.toList).2.map String.mk) = html
  rw [restoreWidgets]
  have hmaps : (((protectAux html.toList.length 0 html.toList).2.map String.mk).map
      String.toList) = (protectAux html.toList.length 0 html.toList).2 := by
    rw [List.map_map]
    have hid : String.toList ∘ String.mk = id := funext fun l => rfl
    rw [hid, List.map_id]
  rw [show (String.mk (protectAux html.toList.length 0 html.toList).1).toList =
      (protectAux html.toList.length 0 html.toList).1 from rfl, hmaps, hT]
  rw [restoreAux_interleave (protectAux html.toList.length 0 html.toList).2 gs 0 g0
    hlen hQ hgsm hfsOK]
  rw [← hs]
  show String.mk html.data = html
  rfl

/-- C1 witness: a document with a paragraph, an iframe and a figure
round-trips to itself. -/
theorem c1_widget_roundtrip_witness :
    restoreWidgets
        (protectWidgets "<p>A</p><iframe id=\"x\"></iframe><figure>F</figure>").html
        (protectWidgets "<p>A</p><iframe id=\"x\"></iframe><figure>F</figure>").widgets =
      "<p>A</p><iframe id=\"x\"></iframe><figure>F</figure>" :=
  c1_widget_roundtrip "<p>A</p><iframe id=\"x\"></iframe><figure>F</figure>"
    (by decide) (by decide)

end Backend
